import Mathlib

/-!
Verification of the weekly employee-shift scheduler (EmployeeShifts.py).

The Python program is shallowly embedded: employee objects become a
`Nat`-indexed family of `Employee` records, the mutable 7×3 schedule grid
becomes a function `Nat → Shift → List String`, and each in-place pass
becomes a state-passing function over `SchedState`.  Python's stable
`list.sort(key=...)` is embedded as a stable insertion sort, and the
per-day `random.shuffle` of the employee order is injected as an explicit
`orders : Nat → List Nat` parameter (one index order per day).
-/

namespace EmployeeShifts

set_option maxHeartbeats 1000000
set_option maxRecDepth 8000

/-- The three fixed daily shifts (`SHIFTS` in the source). -/
inductive Shift
  | morning
  | afternoon
  | evening
deriving DecidableEq

/-- `SHIFTS = ["morning", "afternoon", "evening"]`, the canonical order. -/
def SHIFTS : List Shift := [Shift.morning, Shift.afternoon, Shift.evening]

/-- The `Employee` class: name, per-day ranked preference lists,
the `days_assigned` counter and the `assigned_shifts` day→shift mapping
(embedded as an association list where the most recent binding is first). -/
structure Employee where
  name : String
  preferences : Nat → List Shift
  days_assigned : Nat
  assigned_shifts : List (Nat × Shift)

/-- The mutable program state shared by all passes: the schedule grid
(`schedule[day][shift]` is the list of assigned names), the employee
objects (indexed by their position in the Python `employees` list) and
the number of employees. -/
structure SchedState where
  schedule : Nat → Shift → List String
  emps : Nat → Employee
  nemps : Nat

/-- `initialize_schedule`: every cell starts as the empty list. -/
def initialize_schedule : Nat → Shift → List String := fun _ _ => []

/-- The state at the start of a run: empty schedule, the given employees. -/
def initState (n : Nat) (f : Nat → Employee) : SchedState :=
  { schedule := initialize_schedule, emps := f, nemps := n }

/-- `can_assign(emp, day)`: the employee has no assignment recorded for
`day` and is under the 5-day weekly cap. -/
def can_assign (emp : Employee) (day : Nat) : Bool :=
  if (emp.assigned_shifts.lookup day).isSome then false
  else if 5 ≤ emp.days_assigned then false
  else true

/-- `assign_employee_to_shift(emp, day, shift, schedule)`: append the
employee's name to the cell, record `assigned_shifts[day] = shift` and
increment `days_assigned`.  `i` is the employee's index. -/
def assign_employee_to_shift (st : SchedState) (i day : Nat) (s : Shift) : SchedState :=
  { schedule := fun d2 s2 =>
      if d2 = day ∧ s2 = s then st.schedule d2 s2 ++ [(st.emps i).name]
      else st.schedule d2 s2,
    emps := fun j =>
      if j = i then
        { st.emps i with
          assigned_shifts := (day, s) :: (st.emps i).assigned_shifts,
          days_assigned := (st.emps i).days_assigned + 1 }
      else st.emps j,
    nemps := st.nemps }

/-- Loop `for shift in shifts: if len(schedule[day][shift]) < max_per_shift:
assign; break` — assign employee `i` to the first listed shift with
remaining capacity, reporting whether an assignment happened. -/
def assign_first (cap day i : Nat) : List Shift → SchedState → SchedState × Bool
  | [], st => (st, false)
  | sh :: rest, st =>
    if (st.schedule day sh).length < cap then (assign_employee_to_shift st i day sh, true)
    else assign_first cap day i rest st

/-- The preference pass's fallback loop: walk `SHIFTS`, skipping shifts in
the preference list (`if shift in prefs: continue`), and assign to the
first remaining shift with capacity. -/
def assign_first_nonpref (cap day i : Nat) (prefs : List Shift) :
    List Shift → SchedState → SchedState × Bool
  | [], st => (st, false)
  | sh :: rest, st =>
    if sh ∈ prefs then assign_first_nonpref cap day i prefs rest st
    else if (st.schedule day sh).length < cap then (assign_employee_to_shift st i day sh, true)
    else assign_first_nonpref cap day i prefs rest st

/-- The body of the preference pass for one employee on one day:
skip when ineligible, else try the ranked preferences, else try the
non-preferred shifts in canonical order, else leave unassigned. -/
def pass1_worker (cap day : Nat) (st : SchedState) (i : Nat) : SchedState :=
  if can_assign (st.emps i) day then
    let prefs := (st.emps i).preferences day
    let r := assign_first cap day i prefs st
    if r.2 then r.1 else (assign_first_nonpref cap day i prefs SHIFTS r.1).1
  else st

/-- One day of the preference pass: process the employees in the day's
(shuffled) order. -/
def schedule_day_pass (cap day : Nat) (order : List Nat) (st : SchedState) : SchedState :=
  order.foldl (pass1_worker cap day) st

/-- The preference pass of `schedule_with_preferences`: for each day 0..6,
process the employees in that day's shuffled order. -/
def preference_pass (cap : Nat) (orders : Nat → List Nat) (st : SchedState) : SchedState :=
  (List.range 7).foldl (fun st day => schedule_day_pass cap day (orders day) st) st

/-- `[e for e in employees if can_assign(e, day)]`, as indices in list order. -/
def eligible_for (st : SchedState) (day : Nat) : List Nat :=
  (List.range st.nemps).filter (fun i => can_assign (st.emps i) day)

/-- Stable insertion of `x` into a list sorted ascending by `key`:
`x` goes before the first element whose key is not smaller, so elements
with equal keys keep their original relative order (as Python's stable
`sort` does). -/
def insort_by (key : Nat → Nat) (x : Nat) : List Nat → List Nat
  | [] => [x]
  | y :: ys => if key y < key x then y :: insort_by key x ys else x :: y :: ys

/-- Stable sort ascending by `key`, embedding Python's `list.sort(key=...)`. -/
def sort_by_key (key : Nat → Nat) : List Nat → List Nat
  | [] => []
  | x :: xs => insort_by key x (sort_by_key key xs)

/-- `eligible.sort(key=lambda x: x.days_assigned)`: the eligible pool for
`day`, sorted ascending by current `days_assigned`. -/
def sorted_eligible (st : SchedState) (day : Nat) : List Nat :=
  sort_by_key (fun i => (st.emps i).days_assigned) (eligible_for st day)

/-- The `chosen` loop of `ensure_minimum_staffing`: walk the sorted
eligible list, stop once `need` employees are chosen, and take an
employee only while `len(schedule[day][shift]) + len(chosen) <
max_per_shift` (the cell is not yet modified at this point). -/
def choose_loop (occ need cap : Nat) (chosen : List Nat) : List Nat → List Nat
  | [] => chosen
  | i :: rest =>
    if need ≤ chosen.length then chosen
    else if occ + chosen.length < cap then choose_loop occ need cap (chosen ++ [i]) rest
    else choose_loop occ need cap chosen rest

/-- `for e in chosen: assign_employee_to_shift(e, day, shift, schedule)`. -/
def assign_all (day : Nat) (s : Shift) (chosen : List Nat) (st : SchedState) : SchedState :=
  chosen.foldl (fun st i => assign_employee_to_shift st i day s) st

/-- One cell of `ensure_minimum_staffing`: compute
`need = min_required - len(cell)`; when positive, choose from the sorted
eligible pool, assign the chosen employees, and emit a shortage record
for any remaining deficit. -/
def backfill_cell (m cap day : Nat) (s : Shift) (st : SchedState) :
    SchedState × List (Nat × Shift × Nat) :=
  let need := m - (st.schedule day s).length
  if 0 < need then
    let chosen := choose_loop (st.schedule day s).length need cap [] (sorted_eligible st day)
    let st1 := assign_all day s chosen st
    let still := need - chosen.length
    (st1, if 0 < still then [(day, s, still)] else [])
  else (st, [])

/-- `ensure_minimum_staffing`'s double loop over the given cells. -/
def backfill_cells (m cap : Nat) :
    List (Nat × Shift) → SchedState → SchedState × List (Nat × Shift × Nat)
  | [], st => (st, [])
  | c :: cs, st =>
    let r := backfill_cell m cap c.1 c.2 st
    let r2 := backfill_cells m cap cs r.1
    (r2.1, r.2 ++ r2.2)

/-- The 21 grid cells `(day, shift)` in canonical order
(`for day in range(7): for shift in SHIFTS`). -/
def gridCells : List (Nat × Shift) :=
  (List.range 7).flatMap (fun d => SHIFTS.map (fun s => (d, s)))

/-- `ensure_minimum_staffing(schedule, employees, min_required, max_per_shift)`:
top up every under-floor cell and return the list of shortages. -/
def ensure_minimum_staffing (m cap : Nat) (st : SchedState) :
    SchedState × List (Nat × Shift × Nat) :=
  backfill_cells m cap gridCells st

/-- The per-shortage loop of `resolve_shortages_via_next_day`: walk the
sorted eligible list; `k` is `len(chosen)`.  Note that here the
assignment happens inside the loop, so `len(schedule[day][shift])` in the
guard already includes the employees just placed. -/
def resolve_loop (day : Nat) (s : Shift) (need cap : Nat) :
    List Nat → SchedState → Nat → SchedState × Nat
  | [], st, k => (st, k)
  | i :: rest, st, k =>
    if need ≤ k then (st, k)
    else if (st.schedule day s).length + k < cap then
      resolve_loop day s need cap rest (assign_employee_to_shift st i day s) (k + 1)
    else resolve_loop day s need cap rest st k

/-- `resolve_shortages_via_next_day`: for each recorded shortage,
re-gather and sort the eligible pool for that day, place workers via
`resolve_loop`, and report any residual deficit as an unresolved
shortage. -/
def resolve_shortages_via_next_day (cap : Nat) :
    List (Nat × Shift × Nat) → SchedState → SchedState × List (Nat × Shift × Nat)
  | [], st => (st, [])
  | r :: rest, st =>
    let e := resolve_loop r.1 r.2.1 r.2.2 cap (sorted_eligible st r.1) st 0
    let still := r.2.2 - e.2
    let r2 := resolve_shortages_via_next_day cap rest e.1
    (r2.1, (if 0 < still then [(r.1, r.2.1, still)] else []) ++ r2.2)

/-- The body of `fill_remaining_with_available` for one employee on one
day: skip when ineligible, else try preferences first, else try any
shift in canonical order. -/
def fill_worker (cap day : Nat) (st : SchedState) (i : Nat) : SchedState :=
  if can_assign (st.emps i) day then
    let prefs := (st.emps i).preferences day
    let r := assign_first cap day i prefs st
    if r.2 then r.1 else (assign_first cap day i SHIFTS r.1).1
  else st

/-- `fill_remaining_with_available`: the final coverage sweep, day-major,
employee-list order (no shuffle). -/
def fill_remaining_with_available (cap : Nat) (st : SchedState) : SchedState :=
  (List.range 7).foldl
    (fun st day => (List.range st.nemps).foldl (fill_worker cap day) st) st

/-- `schedule_with_preferences`: the four passes in sequence.  The
resolver is invoked only when the backfill reported shortages, and its
return value is discarded by this caller (as in the source). -/
def schedule_with_preferences (cap : Nat) (orders : Nat → List Nat) (st0 : SchedState) :
    SchedState :=
  let st1 := preference_pass cap orders st0
  let r2 := ensure_minimum_staffing 2 cap st1
  let st3 := if r2.2 = [] then r2.1 else (resolve_shortages_via_next_day cap r2.2 r2.1).1
  fill_remaining_with_available cap st3

/-- The state after the preference pass of a run. -/
def run_pass1 (cap : Nat) (orders : Nat → List Nat) (n : Nat) (f : Nat → Employee) :
    SchedState :=
  preference_pass cap orders (initState n f)

/-- The state and shortage list after the minimum-staffing backfill. -/
def run_backfill (cap : Nat) (orders : Nat → List Nat) (n : Nat) (f : Nat → Employee) :
    SchedState × List (Nat × Shift × Nat) :=
  ensure_minimum_staffing 2 cap (run_pass1 cap orders n f)

/-- The state and residual shortage list after the shortage resolver. -/
def run_resolver (cap : Nat) (orders : Nat → List Nat) (n : Nat) (f : Nat → Employee) :
    SchedState × List (Nat × Shift × Nat) :=
  let r := run_backfill cap orders n f
  if r.2 = [] then (r.1, []) else resolve_shortages_via_next_day cap r.2 r.1

/-- The final state, after the coverage sweep. -/
def run_fill (cap : Nat) (orders : Nat → List Nat) (n : Nat) (f : Nat → Employee) :
    SchedState :=
  fill_remaining_with_available cap (run_resolver cap orders n f).1


/-- Capacity invariant: every cell holds at most `cap` names. -/
def CapInv (cap : Nat) (st : SchedState) : Prop :=
  ∀ d s, (st.schedule d s).length ≤ cap

/-- Weekly-cap invariant: every employee has at most 5 assigned days. -/
def DaysInv (st : SchedState) : Prop :=
  ∀ i, i < st.nemps → (st.emps i).days_assigned ≤ 5

/-- The injected shuffle orders only mention valid employee indices. -/
def OrdersValid (orders : Nat → List Nat) (n : Nat) : Prop :=
  ∀ d, ∀ i ∈ orders d, i < n

/-- A worker with empty assignment state, as constructed by `Employee.__init__`. -/
def FreshEmp (e : Employee) : Prop :=
  e.days_assigned = 0 ∧ e.assigned_shifts = []

/-- Sum of the `missingCount` components of a shortage list. -/
def sumNeeds (l : List (Nat × Shift × Nat)) : Nat :=
  (l.map (fun r => r.2.2)).sum

/-- Sum over all 21 cells of `max(0, minRequired − occupancy)`
(with `minRequired = 2`). -/
def deficitSum (st : SchedState) : Nat :=
  (gridCells.map (fun c => 2 - (st.schedule c.1 c.2).length)).sum

/-- A single assignment made at a moment when the employee is eligible
and the target cell is under capacity; `Steps` is the reflexive
transitive closure. Every assignment any pass performs is of this form. -/
def goodAssign (cap : Nat) (st st2 : SchedState) : Prop :=
  ∃ i day s, i < st.nemps ∧ can_assign (st.emps i) day = true ∧
    (st.schedule day s).length < cap ∧ st2 = assign_employee_to_shift st i day s

def Steps (cap : Nat) : SchedState → SchedState → Prop :=
  Relation.ReflTransGen (goodAssign cap)

/-- Monotone progress: a later state has the same number of employees,
extends every cell (never removing or replacing names), never decreases
any `days_assigned`, and keeps every recorded day→shift binding. -/
def monole (st st2 : SchedState) : Prop :=
  st2.nemps = st.nemps ∧
  (∀ d s, ∃ t, st2.schedule d s = st.schedule d s ++ t) ∧
  (∀ i, (st.emps i).days_assigned ≤ (st2.emps i).days_assigned) ∧
  (∀ i d s, (st.emps i).assigned_shifts.lookup d = some s →
      (st2.emps i).assigned_shifts.lookup d = some s)

/-- The number of workers the backfill places in a cell:
`min(need, #eligible, cap − occupancy)`. -/
def cell_pick (m cap day : Nat) (s : Shift) (st : SchedState) : Nat :=
  min (m - (st.schedule day s).length)
    (min (sorted_eligible st day).length (cap - (st.schedule day s).length))

/-- Worker `i` is settled for day `d`: either already assigned that day,
or at the weekly cap, or every cell of the day is full. -/
def DisjAt (cap d : Nat) (st : SchedState) (i : Nat) : Prop :=
  (st.emps i).assigned_shifts.lookup d ≠ none ∨
  5 ≤ (st.emps i).days_assigned ∨
  ∀ s, cap ≤ (st.schedule d s).length

/-- All workers have pairwise distinct display names. -/
def NamesOK (st : SchedState) : Prop :=
  ∀ i j, i < st.nemps → j < st.nemps → i ≠ j → (st.emps i).name ≠ (st.emps j).name

/-- Each worker records at most one shift per day (distinct day keys), and
a worker's name is in cell `(d, s)` exactly when `assigned_shifts[d] = s`. -/
def MirrorInv (st : SchedState) : Prop :=
  (∀ i, i < st.nemps → ((st.emps i).assigned_shifts.map Prod.fst).Nodup) ∧
  (∀ i, i < st.nemps → ∀ d s, ((st.emps i).name ∈ st.schedule d s ↔
      (st.emps i).assigned_shifts.lookup d = some s))

/-- One shift per day, stated per worker: the `assigned_shifts` record has
at most one entry for each day, and the name sits exactly in the cell the
record names. -/
def OneShiftPerDay (st : SchedState) : Prop :=
  ∀ i, i < st.nemps → ∀ d : Nat,
    (((st.emps i).assigned_shifts.filter (fun p => p.1 == d)).length ≤ 1) ∧
    (∀ s, ((st.emps i).name ∈ st.schedule d s ↔
      (st.emps i).assigned_shifts.lookup d = some s))

/-! ### Concrete inputs for counterexamples and witnesses -/

/-- Two fresh workers with no preferences, for exercising the resolver. -/
def c1_state : SchedState :=
  initState 2 (fun i =>
    { name := if i = 0 then "A" else "B", preferences := fun _ => [],
      days_assigned := 0, assigned_shifts := [] })

/-- Three fresh workers who all prefer morning on day 0. -/
def c2_f : Nat → Employee := fun i =>
  { name := if i = 0 then "A" else if i = 1 then "B" else "C",
    preferences := fun d => if d = 0 then [Shift.morning] else [],
    days_assigned := 0, assigned_shifts := [] }

def c2_orders : Nat → List Nat := fun _ => [0, 1, 2]

/-- One fresh worker with no preferences. -/
def w_f : Nat → Employee := fun _ =>
  { name := "A", preferences := fun _ => [], days_assigned := 0, assigned_shifts := [] }

def w_orders : Nat → List Nat := fun _ => [0]

/-- Sanity: the staged run equals the source's `schedule_with_preferences`. -/
theorem run_fill_eq_schedule_with_preferences (cap : Nat) (orders : Nat → List Nat)
    (n : Nat) (f : Nat → Employee) :
    run_fill cap orders n f = schedule_with_preferences cap orders (initState n f) := by
  unfold run_fill run_resolver run_backfill run_pass1 schedule_with_preferences
  by_cases h : (ensure_minimum_staffing 2 cap (preference_pass cap orders (initState n f))).2 = []
  · simp [h]
  · simp [h]

/-! ### Basic lemmas about the assignment operation and eligibility -/

theorem lookup_cons (k d : Nat) (s : Shift) (l : List (Nat × Shift)) :
    ((d, s) :: l).lookup k = if k = d then some s else l.lookup k := by
  simp only [List.lookup]
  by_cases h : k = d
  · simp [h]
  · have hb : (k == d) = false := by simpa using h
    simp [hb, h]

theorem can_assign_iff (e : Employee) (d : Nat) :
    can_assign e d = true ↔ (e.assigned_shifts.lookup d = none ∧ e.days_assigned < 5) := by
  unfold can_assign
  rcases h : e.assigned_shifts.lookup d with _ | v
  · by_cases h2 : 5 ≤ e.days_assigned <;> simp [h2] <;> omega
  · simp

theorem can_assign_false_iff (e : Employee) (d : Nat) :
    can_assign e d = false ↔ (e.assigned_shifts.lookup d ≠ none ∨ 5 ≤ e.days_assigned) := by
  rw [← Bool.not_eq_true, can_assign_iff]
  constructor
  · intro h
    by_cases h1 : e.assigned_shifts.lookup d = none
    · right; by_contra h2; exact h ⟨h1, by omega⟩
    · left; exact h1
  · rintro (h1 | h2) ⟨ha, hb⟩
    · exact h1 ha
    · omega

theorem assign_schedule_self (st : SchedState) (i day : Nat) (s : Shift) :
    (assign_employee_to_shift st i day s).schedule day s
      = st.schedule day s ++ [(st.emps i).name] := by
  simp [assign_employee_to_shift]

theorem assign_schedule_ne (st : SchedState) (i day : Nat) (s : Shift) {d2 : Nat} {s2 : Shift}
    (h : ¬(d2 = day ∧ s2 = s)) :
    (assign_employee_to_shift st i day s).schedule d2 s2 = st.schedule d2 s2 := by
  simp [assign_employee_to_shift, h]

theorem assign_schedule_len (st : SchedState) (i day : Nat) (s : Shift) (d2 : Nat) (s2 : Shift) :
    ((assign_employee_to_shift st i day s).schedule d2 s2).length
      = (st.schedule d2 s2).length + (if d2 = day ∧ s2 = s then 1 else 0) := by
  by_cases h : d2 = day ∧ s2 = s <;> simp [assign_employee_to_shift, h]

theorem assign_emps_self (st : SchedState) (i day : Nat) (s : Shift) :
    (assign_employee_to_shift st i day s).emps i
      = { st.emps i with
          assigned_shifts := (day, s) :: (st.emps i).assigned_shifts,
          days_assigned := (st.emps i).days_assigned + 1 } := by
  simp [assign_employee_to_shift]

theorem assign_emps_ne (st : SchedState) (i day : Nat) (s : Shift) {j : Nat} (h : j ≠ i) :
    (assign_employee_to_shift st i day s).emps j = st.emps j := by
  simp [assign_employee_to_shift, h]

theorem assign_nemps (st : SchedState) (i day : Nat) (s : Shift) :
    (assign_employee_to_shift st i day s).nemps = st.nemps := rfl

/-! ### Guarded assignment steps

Every assignment any pass performs happens at a moment when the employee
is eligible (`can_assign`) and the target cell is under capacity.  We
capture a single such assignment as `goodAssign` and the reflexive
transitive closure as `Steps`; the per-pass refinement lemmas below show
every pass is a chain of such steps, and the invariants of the spec are
preserved by each step. -/


theorem Steps.refl (cap : Nat) (st : SchedState) : Steps cap st st :=
  Relation.ReflTransGen.refl

theorem Steps.trans {cap : Nat} {a b c : SchedState} (h1 : Steps cap a b) (h2 : Steps cap b c) :
    Steps cap a c :=
  Relation.ReflTransGen.trans h1 h2

theorem Steps.single {cap : Nat} {a b : SchedState} (h : goodAssign cap a b) : Steps cap a b :=
  Relation.ReflTransGen.single h

theorem goodAssign_nemps {cap : Nat} {st st2 : SchedState} (h : goodAssign cap st st2) :
    st2.nemps = st.nemps := by
  obtain ⟨i, day, s, _, _, _, rfl⟩ := h
  rfl

theorem steps_nemps {cap : Nat} {st st2 : SchedState} (h : Steps cap st st2) :
    st2.nemps = st.nemps := by
  induction h with
  | refl => rfl
  | tail _ h2 ih => rw [goodAssign_nemps h2, ih]

theorem goodAssign_capInv {cap : Nat} {st st2 : SchedState} (h : goodAssign cap st st2)
    (hc : CapInv cap st) : CapInv cap st2 := by
  obtain ⟨i, day, s, _, _, hlen, rfl⟩ := h
  intro d2 s2
  by_cases hds : d2 = day ∧ s2 = s
  · obtain ⟨rfl, rfl⟩ := hds
    rw [assign_schedule_self]
    simp only [List.length_append, List.length_cons, List.length_nil]
    omega
  · rw [assign_schedule_ne st i day s hds]
    exact hc d2 s2

theorem steps_capInv {cap : Nat} {st st2 : SchedState} (h : Steps cap st st2)
    (hc : CapInv cap st) : CapInv cap st2 := by
  induction h with
  | refl => exact hc
  | tail _ h2 ih => exact goodAssign_capInv h2 ih

theorem goodAssign_daysInv {cap : Nat} {st st2 : SchedState} (h : goodAssign cap st st2)
    (hc : DaysInv st) : DaysInv st2 := by
  obtain ⟨i, day, s, hi, hca, _, rfl⟩ := h
  intro j hj
  rw [assign_nemps] at hj
  by_cases hji : j = i
  · subst hji
    rw [assign_emps_self]
    have := (can_assign_iff (st.emps j) day).1 hca
    simp only []
    omega
  · rw [assign_emps_ne st i day s hji]
    exact hc j hj

theorem steps_daysInv {cap : Nat} {st st2 : SchedState} (h : Steps cap st st2)
    (hc : DaysInv st) : DaysInv st2 := by
  induction h with
  | refl => exact hc
  | tail _ h2 ih => exact goodAssign_daysInv h2 ih


theorem monole_refl (st : SchedState) : monole st st :=
  ⟨rfl, fun d s => ⟨[], by simp⟩, fun _ => le_refl _, fun _ _ _ h => h⟩

theorem monole_trans {a b c : SchedState} (h1 : monole a b) (h2 : monole b c) : monole a c := by
  obtain ⟨hn1, hs1, hd1, hl1⟩ := h1
  obtain ⟨hn2, hs2, hd2, hl2⟩ := h2
  refine ⟨hn2.trans hn1, ?_, fun i => (hd1 i).trans (hd2 i), fun i d s h => hl2 i d s (hl1 i d s h)⟩
  intro d s
  obtain ⟨t1, ht1⟩ := hs1 d s
  obtain ⟨t2, ht2⟩ := hs2 d s
  exact ⟨t1 ++ t2, by rw [ht2, ht1, List.append_assoc]⟩

theorem goodAssign_monole {cap : Nat} {st st2 : SchedState} (h : goodAssign cap st st2) :
    monole st st2 := by
  obtain ⟨i, day, s, hi, hca, _, rfl⟩ := h
  refine ⟨rfl, ?_, ?_, ?_⟩
  · intro d2 s2
    by_cases hds : d2 = day ∧ s2 = s
    · obtain ⟨rfl, rfl⟩ := hds
      exact ⟨[(st.emps i).name], assign_schedule_self st i d2 s2⟩
    · exact ⟨[], by rw [assign_schedule_ne st i day s hds, List.append_nil]⟩
  · intro j
    by_cases hji : j = i
    · subst hji
      rw [assign_emps_self]
      exact Nat.le_succ _
    · rw [assign_emps_ne st i day s hji]
  · intro j d2 s2 hl
    by_cases hji : j = i
    · subst hji
      rw [assign_emps_self]
      simp only []
      rw [lookup_cons]
      have hnone := ((can_assign_iff (st.emps j) day).1 hca).1
      by_cases hd2 : d2 = day
      · subst hd2; rw [hnone] at hl; cases hl
      · rw [if_neg hd2]; exact hl
    · rw [assign_emps_ne st i day s hji]
      exact hl

theorem steps_monole {cap : Nat} {st st2 : SchedState} (h : Steps cap st st2) :
    monole st st2 := by
  induction h with
  | refl => exact monole_refl _
  | tail _ h2 ih => exact monole_trans ih (goodAssign_monole h2)

/-! ### First-fit loops as `find?` -/

theorem assign_first_eq (cap day i : Nat) :
    ∀ (L : List Shift) (st : SchedState),
      assign_first cap day i L st =
        match L.find? (fun sh => decide ((st.schedule day sh).length < cap)) with
        | some sh => (assign_employee_to_shift st i day sh, true)
        | none => (st, false)
  | [], _ => rfl
  | sh :: rest, st => by
    by_cases h : (st.schedule day sh).length < cap
    · rw [List.find?_cons_of_pos _ (by simpa using h)]
      simp [assign_first, h]
    · rw [List.find?_cons_of_neg _ (by simpa using h)]
      simp only [assign_first, if_neg h]
      exact assign_first_eq cap day i rest st

theorem assign_first_nonpref_eq (cap day i : Nat) (prefs : List Shift) :
    ∀ (L : List Shift) (st : SchedState),
      assign_first_nonpref cap day i prefs L st =
        match (L.filter (fun sh => !(decide (sh ∈ prefs)))).find?
            (fun sh => decide ((st.schedule day sh).length < cap)) with
        | some sh => (assign_employee_to_shift st i day sh, true)
        | none => (st, false)
  | [], _ => rfl
  | sh :: rest, st => by
    by_cases hp : sh ∈ prefs
    · rw [List.filter_cons_of_neg (by simpa using hp)]
      simp only [assign_first_nonpref, if_pos hp]
      exact assign_first_nonpref_eq cap day i prefs rest st
    · rw [List.filter_cons_of_pos (by simpa using hp)]
      by_cases h : (st.schedule day sh).length < cap
      · rw [List.find?_cons_of_pos _ (by simpa using h)]
        simp [assign_first_nonpref, hp, h]
      · rw [List.find?_cons_of_neg _ (by simpa using h)]
        simp only [assign_first_nonpref, if_neg hp, if_neg h]
        exact assign_first_nonpref_eq cap day i prefs rest st

theorem assign_first_false_spec (cap day i : Nat) (L : List Shift) (st : SchedState)
    (h : (assign_first cap day i L st).2 = false) :
    (assign_first cap day i L st).1 = st ∧
      ∀ sh ∈ L, cap ≤ (st.schedule day sh).length := by
  rw [assign_first_eq] at h ⊢
  rcases hf : L.find? (fun sh => decide ((st.schedule day sh).length < cap)) with _ | sh
  · refine ⟨rfl, fun sh hsh => ?_⟩
    have := List.find?_eq_none.1 hf sh hsh
    simp only [decide_eq_true_eq] at this
    omega
  · rw [hf] at h
    simp at h

theorem assign_first_true_spec (cap day i : Nat) (L : List Shift) (st : SchedState)
    (h : (assign_first cap day i L st).2 = true) :
    ∃ sh ∈ L, (st.schedule day sh).length < cap ∧
      (assign_first cap day i L st).1 = assign_employee_to_shift st i day sh := by
  rw [assign_first_eq] at h ⊢
  rcases hf : L.find? (fun sh => decide ((st.schedule day sh).length < cap)) with _ | sh
  · rw [hf] at h; simp at h
  · have hmem := List.mem_of_find?_eq_some hf
    have hp := List.find?_some hf
    simp only [decide_eq_true_eq] at hp
    exact ⟨sh, hmem, hp, rfl⟩

theorem steps_assign_first (cap day i : Nat) (L : List Shift) (st : SchedState)
    (hi : i < st.nemps) (hca : can_assign (st.emps i) day = true) :
    Steps cap st (assign_first cap day i L st).1 := by
  rw [assign_first_eq]
  rcases hf : L.find? (fun sh => decide ((st.schedule day sh).length < cap)) with _ | sh
  · exact Steps.refl cap st
  · have hp := List.find?_some hf
    simp only [decide_eq_true_eq] at hp
    exact Steps.single ⟨i, day, sh, hi, hca, hp, rfl⟩

theorem steps_assign_first_nonpref (cap day i : Nat) (prefs L : List Shift) (st : SchedState)
    (hi : i < st.nemps) (hca : can_assign (st.emps i) day = true) :
    Steps cap st (assign_first_nonpref cap day i prefs L st).1 := by
  rw [assign_first_nonpref_eq]
  rcases hf : (L.filter (fun sh => !(decide (sh ∈ prefs)))).find?
      (fun sh => decide ((st.schedule day sh).length < cap)) with _ | sh
  · exact Steps.refl cap st
  · have hp := List.find?_some hf
    simp only [decide_eq_true_eq] at hp
    exact Steps.single ⟨i, day, sh, hi, hca, hp, rfl⟩

theorem steps_pass1_worker (cap day : Nat) (st : SchedState) (i : Nat) (hi : i < st.nemps) :
    Steps cap st (pass1_worker cap day st i) := by
  unfold pass1_worker
  by_cases hca : can_assign (st.emps i) day = true
  · simp only [hca, if_true]
    by_cases hb : (assign_first cap day i ((st.emps i).preferences day) st).2 = true
    · simp only [hb, if_true]
      exact steps_assign_first cap day i _ st hi hca
    · simp only [Bool.not_eq_true] at hb
      simp only [hb, Bool.false_eq_true, if_false]
      obtain ⟨heq, _⟩ := assign_first_false_spec cap day i _ st hb
      rw [heq]
      exact steps_assign_first_nonpref cap day i _ SHIFTS st hi hca
  · simp only [Bool.not_eq_true] at hca
    simp only [hca, Bool.false_eq_true, if_false]
    exact Steps.refl cap st

theorem steps_fill_worker (cap day : Nat) (st : SchedState) (i : Nat) (hi : i < st.nemps) :
    Steps cap st (fill_worker cap day st i) := by
  unfold fill_worker
  by_cases hca : can_assign (st.emps i) day = true
  · simp only [hca, if_true]
    by_cases hb : (assign_first cap day i ((st.emps i).preferences day) st).2 = true
    · simp only [hb, if_true]
      exact steps_assign_first cap day i _ st hi hca
    · simp only [Bool.not_eq_true] at hb
      simp only [hb, Bool.false_eq_true, if_false]
      obtain ⟨heq, _⟩ := assign_first_false_spec cap day i _ st hb
      rw [heq]
      exact steps_assign_first cap day i SHIFTS st hi hca
  · simp only [Bool.not_eq_true] at hca
    simp only [hca, Bool.false_eq_true, if_false]
    exact Steps.refl cap st

/-! ### Each pass is a chain of guarded steps -/

theorem steps_schedule_day_pass (cap day : Nat) :
    ∀ (order : List Nat) (st : SchedState), (∀ i ∈ order, i < st.nemps) →
      Steps cap st (schedule_day_pass cap day order st)
  | [], st, _ => Steps.refl cap st
  | i :: rest, st, h => by
    have h1 : Steps cap st (pass1_worker cap day st i) :=
      steps_pass1_worker cap day st i (h i (by simp))
    have hn : (pass1_worker cap day st i).nemps = st.nemps := steps_nemps h1
    have h2 := steps_schedule_day_pass cap day rest (pass1_worker cap day st i)
      (fun j hj => by rw [hn]; exact h j (by simp [hj]))
    exact h1.trans h2

theorem steps_day_fold (cap : Nat) (orders : Nat → List Nat) :
    ∀ (ds : List Nat) (st : SchedState), OrdersValid orders st.nemps →
      Steps cap st (ds.foldl (fun st day => schedule_day_pass cap day (orders day) st) st)
  | [], st, _ => Steps.refl cap st
  | d :: rest, st, h => by
    have h1 : Steps cap st (schedule_day_pass cap d (orders d) st) :=
      steps_schedule_day_pass cap d (orders d) st (fun i hi => h d i hi)
    have hn := steps_nemps h1
    have h2 := steps_day_fold cap orders rest (schedule_day_pass cap d (orders d) st)
      (fun d2 i hi => by rw [hn]; exact h d2 i hi)
    exact h1.trans h2

theorem steps_preference_pass (cap : Nat) (orders : Nat → List Nat) (st : SchedState)
    (h : OrdersValid orders st.nemps) : Steps cap st (preference_pass cap orders st) :=
  steps_day_fold cap orders (List.range 7) st h

theorem steps_fill_fold (cap day : Nat) :
    ∀ (L : List Nat) (st : SchedState), (∀ i ∈ L, i < st.nemps) →
      Steps cap st (L.foldl (fill_worker cap day) st)
  | [], st, _ => Steps.refl cap st
  | i :: rest, st, h => by
    have h1 : Steps cap st (fill_worker cap day st i) :=
      steps_fill_worker cap day st i (h i (by simp))
    have hn := steps_nemps h1
    have h2 := steps_fill_fold cap day rest (fill_worker cap day st i)
      (fun j hj => by rw [hn]; exact h j (by simp [hj]))
    exact h1.trans h2

theorem steps_fill_days (cap : Nat) :
    ∀ (ds : List Nat) (st : SchedState),
      Steps cap st (ds.foldl
        (fun st day => (List.range st.nemps).foldl (fill_worker cap day) st) st)
  | [], st => Steps.refl cap st
  | d :: rest, st => by
    have h1 : Steps cap st ((List.range st.nemps).foldl (fill_worker cap d) st) :=
      steps_fill_fold cap d (List.range st.nemps) st (fun i hi => List.mem_range.1 hi)
    have h2 := steps_fill_days cap rest ((List.range st.nemps).foldl (fill_worker cap d) st)
    exact h1.trans h2

theorem steps_fill_remaining (cap : Nat) (st : SchedState) :
    Steps cap st (fill_remaining_with_available cap st) :=
  steps_fill_days cap (List.range 7) st

/-! ### The stable sort -/

theorem insort_by_perm (key : Nat → Nat) (x : Nat) :
    ∀ l : List Nat, (insort_by key x l).Perm (x :: l)
  | [] => List.Perm.refl _
  | y :: ys => by
    unfold insort_by
    by_cases h : key y < key x
    · simp only [h, if_true]
      exact ((insort_by_perm key x ys).cons y).trans (List.Perm.swap x y ys)
    · simp [h]

theorem sort_by_key_perm (key : Nat → Nat) : ∀ l : List Nat, (sort_by_key key l).Perm l
  | [] => List.Perm.refl _
  | x :: xs =>
    (insort_by_perm key x (sort_by_key key xs)).trans ((sort_by_key_perm key xs).cons x)

theorem insort_by_sorted (key : Nat → Nat) (x : Nat) :
    ∀ l : List Nat, l.Pairwise (fun a b => key a ≤ key b) →
      (insort_by key x l).Pairwise (fun a b => key a ≤ key b)
  | [], _ => by simp [insort_by]
  | y :: ys, h => by
    unfold insort_by
    obtain ⟨hy, hys⟩ := List.pairwise_cons.1 h
    by_cases hxy : key y < key x
    · simp only [hxy, if_true]
      refine List.pairwise_cons.2 ⟨?_, insort_by_sorted key x ys hys⟩
      intro z hz
      rcases List.mem_cons.1 ((insort_by_perm key x ys).mem_iff.1 hz) with rfl | hz2
      · omega
      · exact hy z hz2
    · simp only [hxy, if_false]
      refine List.pairwise_cons.2 ⟨?_, h⟩
      intro z hz
      rcases List.mem_cons.1 hz with rfl | hz2
      · omega
      · have := hy z hz2
        omega

theorem sort_by_key_sorted (key : Nat → Nat) :
    ∀ l : List Nat, (sort_by_key key l).Pairwise (fun a b => key a ≤ key b)
  | [] => by simp [sort_by_key]
  | x :: xs => insort_by_sorted key x _ (sort_by_key_sorted key xs)

theorem insort_by_filter (key : Nat → Nat) (x v : Nat) :
    ∀ l : List Nat, (insort_by key x l).filter (fun a => key a == v)
      = (if key x = v then [x] else []) ++ l.filter (fun a => key a == v)
  | [] => by
    by_cases h : key x = v <;> simp [insort_by, List.filter_cons, h]
  | y :: ys => by
    unfold insort_by
    by_cases hxy : key y < key x
    · simp only [hxy, if_true]
      by_cases hyv : key y = v
      · have hx : ¬(key x = v) := by omega
        simp [List.filter_cons, hyv, hx, insort_by_filter key x v ys]
      · simp [List.filter_cons, hyv, insort_by_filter key x v ys]
    · rw [if_neg hxy]
      by_cases h : key x = v <;> simp [List.filter_cons, h]

theorem sort_by_key_filter (key : Nat → Nat) (v : Nat) :
    ∀ l : List Nat, (sort_by_key key l).filter (fun a => key a == v)
      = l.filter (fun a => key a == v)
  | [] => rfl
  | x :: xs => by
    rw [sort_by_key, insort_by_filter, sort_by_key_filter key v xs]
    by_cases h : key x = v <;> simp [List.filter_cons, h]

/-! ### The eligible pool -/

theorem eligible_for_nodup (st : SchedState) (day : Nat) : (eligible_for st day).Nodup :=
  (List.nodup_range st.nemps).filter _

theorem mem_eligible_for (st : SchedState) (day i : Nat) :
    i ∈ eligible_for st day ↔ (i < st.nemps ∧ can_assign (st.emps i) day = true) := by
  simp [eligible_for, List.mem_filter, List.mem_range]

theorem sorted_eligible_perm (st : SchedState) (day : Nat) :
    (sorted_eligible st day).Perm (eligible_for st day) :=
  sort_by_key_perm _ _

theorem sorted_eligible_nodup (st : SchedState) (day : Nat) : (sorted_eligible st day).Nodup :=
  ((sorted_eligible_perm st day).nodup_iff).2 (eligible_for_nodup st day)

theorem mem_sorted_eligible (st : SchedState) (day i : Nat) :
    i ∈ sorted_eligible st day ↔ (i < st.nemps ∧ can_assign (st.emps i) day = true) := by
  rw [(sorted_eligible_perm st day).mem_iff]
  exact mem_eligible_for st day i

/-! ### The backfill chooser -/

theorem choose_loop_stuck (occ need cap : Nat) (chosen : List Nat)
    (h : cap ≤ occ + chosen.length) : ∀ E, choose_loop occ need cap chosen E = chosen
  | [] => rfl
  | i :: rest => by
    unfold choose_loop
    by_cases h1 : need ≤ chosen.length
    · simp [h1]
    · have h2 : ¬(occ + chosen.length < cap) := by omega
      simp only [if_neg h1, if_neg h2]
      exact choose_loop_stuck occ need cap chosen h rest

theorem choose_loop_length_gen (occ need cap : Nat) :
    ∀ (E chosen : List Nat), chosen.length ≤ need →
      (choose_loop occ need cap chosen E).length
          = min need (min (chosen.length + E.length) (max chosen.length (cap - occ)))
  | [], chosen, h => by
    simp only [choose_loop, List.length_nil]
    omega
  | i :: rest, chosen, h => by
    unfold choose_loop
    by_cases h1 : need ≤ chosen.length
    · simp only [h1, if_true, List.length_cons]
      omega
    · simp only [if_neg h1]
      by_cases h2 : occ + chosen.length < cap
      · simp only [h2, if_true]
        have hlen := choose_loop_length_gen occ need cap rest (chosen ++ [i])
          (by simp only [List.length_append, List.length_cons, List.length_nil]; omega)
        rw [hlen]
        simp only [List.length_append, List.length_cons, List.length_nil]
        omega
      · simp only [h2, if_false]
        rw [choose_loop_stuck occ need cap chosen (by omega) rest]
        simp only [List.length_cons]
        omega

theorem choose_loop_ex_take (occ need cap : Nat) :
    ∀ (E chosen : List Nat), ∃ m, m ≤ E.length ∧
      choose_loop occ need cap chosen E = chosen ++ E.take m
  | [], chosen => ⟨0, by simp [choose_loop]⟩
  | i :: rest, chosen => by
    unfold choose_loop
    by_cases h1 : need ≤ chosen.length
    · exact ⟨0, by simp [h1]⟩
    · simp only [if_neg h1]
      by_cases h2 : occ + chosen.length < cap
      · obtain ⟨m, hm, heq⟩ := choose_loop_ex_take occ need cap rest (chosen ++ [i])
        refine ⟨m + 1, by simp only [List.length_cons]; omega, ?_⟩
        simp only [h2, if_true, heq, List.take_succ_cons, List.append_assoc,
          List.singleton_append]
      · refine ⟨0, by simp, ?_⟩
        simp only [h2, if_false]
        rw [choose_loop_stuck occ need cap chosen (by omega) rest]
        simp

theorem choose_loop_length (occ need cap : Nat) (E : List Nat) :
    (choose_loop occ need cap [] E).length = min need (min E.length (cap - occ)) := by
  have hlen := choose_loop_length_gen occ need cap E [] (by simp)
  rw [hlen]
  simp only [List.length_nil, Nat.zero_add]
  omega

theorem choose_loop_take (occ need cap : Nat) (E : List Nat) :
    choose_loop occ need cap [] E = E.take (min need (min E.length (cap - occ))) := by
  obtain ⟨m, hm, heq⟩ := choose_loop_ex_take occ need cap E []
  have hlen := choose_loop_length occ need cap E
  rw [heq] at hlen ⊢
  simp only [List.nil_append, List.length_take] at hlen ⊢
  have hmeq : m = min need (min E.length (cap - occ)) := by omega
  rw [hmeq]

/-! ### Assigning a chosen list -/

theorem assign_all_sched_len (day : Nat) (s : Shift) :
    ∀ (L : List Nat) (st : SchedState),
      ((assign_all day s L st).schedule day s).length
        = (st.schedule day s).length + L.length
  | [], st => by simp [assign_all]
  | i :: rest, st => by
    have heq : assign_all day s (i :: rest) st
        = assign_all day s rest (assign_employee_to_shift st i day s) := rfl
    rw [heq, assign_all_sched_len day s rest, assign_schedule_self]
    simp only [List.length_append, List.length_cons, List.length_nil]
    omega

theorem assign_all_sched_ne (day : Nat) (s : Shift) {d2 : Nat} {s2 : Shift}
    (h : ¬(d2 = day ∧ s2 = s)) :
    ∀ (L : List Nat) (st : SchedState),
      (assign_all day s L st).schedule d2 s2 = st.schedule d2 s2
  | [], st => rfl
  | i :: rest, st => by
    have heq : assign_all day s (i :: rest) st
        = assign_all day s rest (assign_employee_to_shift st i day s) := rfl
    rw [heq, assign_all_sched_ne day s h rest, assign_schedule_ne st i day s h]

theorem assign_all_emps_notmem (day : Nat) (s : Shift) :
    ∀ (L : List Nat) (st : SchedState) (j : Nat), j ∉ L →
      (assign_all day s L st).emps j = st.emps j
  | [], _, _, _ => rfl
  | i :: rest, st, j, hj => by
    have hji : j ≠ i := fun h => hj (h ▸ List.mem_cons_self i rest)
    have hrest : j ∉ rest := fun h => hj (List.mem_cons_of_mem i h)
    have heq : assign_all day s (i :: rest) st
        = assign_all day s rest (assign_employee_to_shift st i day s) := rfl
    rw [heq, assign_all_emps_notmem day s rest _ j hrest, assign_emps_ne st i day s hji]

theorem assign_all_nemps (day : Nat) (s : Shift) :
    ∀ (L : List Nat) (st : SchedState), (assign_all day s L st).nemps = st.nemps
  | [], _ => rfl
  | i :: rest, st => by
    have heq : assign_all day s (i :: rest) st
        = assign_all day s rest (assign_employee_to_shift st i day s) := rfl
    rw [heq, assign_all_nemps day s rest, assign_nemps]

theorem steps_assign_all (cap day : Nat) (s : Shift) :
    ∀ (L : List Nat) (st : SchedState), L.Nodup →
      (∀ i ∈ L, i < st.nemps ∧ can_assign (st.emps i) day = true) →
      (st.schedule day s).length + L.length ≤ cap →
      Steps cap st (assign_all day s L st)
  | [], st, _, _, _ => Steps.refl cap st
  | i :: rest, st, hnd, hmem, hcap => by
    obtain ⟨hi, hca⟩ := hmem i (List.mem_cons_self i rest)
    have hlt : (st.schedule day s).length < cap := by
      simp only [List.length_cons] at hcap
      omega
    have h1 : goodAssign cap st (assign_employee_to_shift st i day s) :=
      ⟨i, day, s, hi, hca, hlt, rfl⟩
    have hnd2 := (List.nodup_cons.1 hnd).2
    have hnotmem := (List.nodup_cons.1 hnd).1
    have h2 : Steps cap (assign_employee_to_shift st i day s)
        (assign_all day s rest (assign_employee_to_shift st i day s)) := by
      refine steps_assign_all cap day s rest _ hnd2 ?_ ?_
      · intro j hj
        have hji : j ≠ i := fun h => hnotmem (h ▸ hj)
        rw [assign_nemps, assign_emps_ne st i day s hji]
        exact hmem j (List.mem_cons_of_mem i hj)
      · rw [assign_schedule_self]
        simp only [List.length_append, List.length_cons, List.length_nil]
        simp only [List.length_cons] at hcap
        omega
    have heq : assign_all day s (i :: rest) st
        = assign_all day s rest (assign_employee_to_shift st i day s) := rfl
    rw [heq]
    exact (Steps.single h1).trans h2

/-! ### The backfill pass is a chain of guarded steps -/

theorem steps_backfill_cell (m cap day : Nat) (s : Shift) (st : SchedState) :
    Steps cap st (backfill_cell m cap day s st).1 := by
  unfold backfill_cell
  by_cases h : 0 < m - (st.schedule day s).length
  · simp only [h, if_true]
    set E := sorted_eligible st day with hE
    set chosen := choose_loop (st.schedule day s).length (m - (st.schedule day s).length)
      cap [] E with hch
    have hsub : chosen = E.take (min (m - (st.schedule day s).length)
        (min E.length (cap - (st.schedule day s).length))) := choose_loop_take _ _ _ _
    have hnd : chosen.Nodup := by
      rw [hsub]
      exact (sorted_eligible_nodup st day).sublist (List.take_sublist _ _)
    have hmem : ∀ i ∈ chosen, i < st.nemps ∧ can_assign (st.emps i) day = true := by
      intro i hi
      have : i ∈ E := by
        rw [hsub] at hi
        exact List.mem_of_mem_take hi
      exact (mem_sorted_eligible st day i).1 this
    have hlen : chosen.length = min (m - (st.schedule day s).length)
        (min E.length (cap - (st.schedule day s).length)) := by
      rw [hsub, List.length_take]
      have := List.length_take_le (min (m - (st.schedule day s).length)
        (min E.length (cap - (st.schedule day s).length))) E
      omega
    have hcap : (st.schedule day s).length + chosen.length ≤ cap ∨ chosen.length = 0 := by
      rw [hlen]
      omega
    rcases hcap with hcap | hzero
    · exact steps_assign_all cap day s chosen st hnd hmem hcap
    · have : chosen = [] := List.length_eq_zero.1 hzero
      rw [this]
      exact Steps.refl cap st
  · simp only [h, if_false]
    exact Steps.refl cap st

theorem steps_backfill_cells (m cap : Nat) :
    ∀ (cells : List (Nat × Shift)) (st : SchedState),
      Steps cap st (backfill_cells m cap cells st).1
  | [], st => Steps.refl cap st
  | c :: cs, st => by
    have h1 := steps_backfill_cell m cap c.1 c.2 st
    have h2 := steps_backfill_cells m cap cs (backfill_cell m cap c.1 c.2 st).1
    exact h1.trans h2

theorem steps_ensure_minimum_staffing (m cap : Nat) (st : SchedState) :
    Steps cap st (ensure_minimum_staffing m cap st).1 :=
  steps_backfill_cells m cap gridCells st

/-! ### The resolver loop and its characterization -/

theorem resolve_loop_spec (day : Nat) (s : Shift) (need cap : Nat) (occ0 : Nat) :
    ∀ (E : List Nat) (st : SchedState) (k : Nat),
      (st.schedule day s).length = occ0 + k → k ≤ need →
      (resolve_loop day s need cap E st k).2
          = min need (min (k + E.length) (max k ((cap - occ0 + 1) / 2))) ∧
      ((resolve_loop day s need cap E st k).1.schedule day s).length
          = occ0 + (resolve_loop day s need cap E st k).2 ∧
      (∀ d2 s2, ¬(d2 = day ∧ s2 = s) →
        (resolve_loop day s need cap E st k).1.schedule d2 s2 = st.schedule d2 s2) ∧
      k ≤ (resolve_loop day s need cap E st k).2 ∧
      (resolve_loop day s need cap E st k).2 ≤ need
  | [], st, k, hocc, hk => by
    refine ⟨?_, ?_, ?_, ?_, ?_⟩
    · simp only [resolve_loop, List.length_nil]
      omega
    · simpa [resolve_loop] using hocc
    · intro d2 s2 _
      rfl
    · exact le_refl _
    · exact hk
  | i :: rest, st, k, hocc, hk => by
    unfold resolve_loop
    by_cases h1 : need ≤ k
    · have hkeq : k = need := by omega
      subst hkeq
      rw [if_pos (le_refl k)]
      refine ⟨?_, hocc, fun d2 s2 _ => rfl, le_refl _, le_refl _⟩
      simp only [List.length_cons]
      omega
    · simp only [if_neg h1]
      by_cases h2 : (st.schedule day s).length + k < cap
      · simp only [h2, if_true]
        have hocc2 : ((assign_employee_to_shift st i day s).schedule day s).length
            = occ0 + (k + 1) := by
          rw [assign_schedule_self]
          simp only [List.length_append, List.length_cons, List.length_nil]
          omega
        obtain ⟨hcount, hlen, hframe, hge, hle⟩ :=
          resolve_loop_spec day s need cap occ0 rest (assign_employee_to_shift st i day s)
            (k + 1) hocc2 (by omega)
        refine ⟨?_, hlen, ?_, by omega, hle⟩
        · rw [hcount]
          simp only [List.length_cons]
          omega
        · intro d2 s2 hne
          rw [hframe d2 s2 hne, assign_schedule_ne st i day s hne]
      · simp only [h2, if_false]
        obtain ⟨hcount, hlen, hframe, hge, hle⟩ :=
          resolve_loop_spec day s need cap occ0 rest st k hocc hk
        refine ⟨?_, hlen, hframe, hge, hle⟩
        rw [hcount]
        simp only [List.length_cons]
        omega

theorem steps_resolve_loop (cap day : Nat) (s : Shift) (need : Nat) :
    ∀ (E : List Nat) (st : SchedState) (k : Nat), E.Nodup →
      (∀ i ∈ E, i < st.nemps ∧ can_assign (st.emps i) day = true) →
      Steps cap st (resolve_loop day s need cap E st k).1
  | [], st, k, _, _ => Steps.refl cap st
  | i :: rest, st, k, hnd, hmem => by
    unfold resolve_loop
    by_cases h1 : need ≤ k
    · simp only [h1, if_true]
      exact Steps.refl cap st
    · simp only [if_neg h1]
      by_cases h2 : (st.schedule day s).length + k < cap
      · simp only [h2, if_true]
        obtain ⟨hi, hca⟩ := hmem i (List.mem_cons_self i rest)
        have hg : goodAssign cap st (assign_employee_to_shift st i day s) :=
          ⟨i, day, s, hi, hca, by omega, rfl⟩
        have hnotmem := (List.nodup_cons.1 hnd).1
        have h3 := steps_resolve_loop cap day s need rest
          (assign_employee_to_shift st i day s) (k + 1) (List.nodup_cons.1 hnd).2
          (fun j hj => by
            have hji : j ≠ i := fun h => hnotmem (h ▸ hj)
            rw [assign_nemps, assign_emps_ne st i day s hji]
            exact hmem j (List.mem_cons_of_mem i hj))
        exact (Steps.single hg).trans h3
      · simp only [h2, if_false]
        exact steps_resolve_loop cap day s need rest st k (List.nodup_cons.1 hnd).2
          (fun j hj => hmem j (List.mem_cons_of_mem i hj))

theorem steps_resolver (cap : Nat) :
    ∀ (recs : List (Nat × Shift × Nat)) (st : SchedState),
      Steps cap st (resolve_shortages_via_next_day cap recs st).1
  | [], st => Steps.refl cap st
  | r :: rest, st => by
    have h1 : Steps cap st (resolve_loop r.1 r.2.1 r.2.2 cap (sorted_eligible st r.1) st 0).1 :=
      steps_resolve_loop cap r.1 r.2.1 r.2.2 (sorted_eligible st r.1) st 0
        (sorted_eligible_nodup st r.1)
        (fun i hi => (mem_sorted_eligible st r.1 i).1 hi)
    have h2 := steps_resolver cap rest
      (resolve_loop r.1 r.2.1 r.2.2 cap (sorted_eligible st r.1) st 0).1
    exact h1.trans h2

/-! ### Characterization of one backfill cell -/


theorem backfill_cell_eq (m cap day : Nat) (s : Shift) (st : SchedState) :
    backfill_cell m cap day s st =
      (assign_all day s ((sorted_eligible st day).take (cell_pick m cap day s st)) st,
       if 0 < (m - (st.schedule day s).length) - cell_pick m cap day s st
       then [(day, s, (m - (st.schedule day s).length) - cell_pick m cap day s st)]
       else []) := by
  unfold backfill_cell cell_pick
  by_cases h : 0 < m - (st.schedule day s).length
  · simp only [h, if_true]
    rw [choose_loop_take]
    have hlen : ((sorted_eligible st day).take
        (min (m - (st.schedule day s).length)
          (min (sorted_eligible st day).length
            (cap - (st.schedule day s).length)))).length
        = min (m - (st.schedule day s).length)
            (min (sorted_eligible st day).length (cap - (st.schedule day s).length)) := by
      rw [List.length_take]
      omega
    rw [hlen]
  · simp only [h, if_false]
    have hz : m - (st.schedule day s).length = 0 := by omega
    have hp : min (m - (st.schedule day s).length)
        (min (sorted_eligible st day).length (cap - (st.schedule day s).length)) = 0 := by
      omega
    rw [hp, hz]
    simp [assign_all]

theorem backfill_cell_sched_len (m cap day : Nat) (s : Shift) (st : SchedState) :
    (((backfill_cell m cap day s st).1.schedule day s)).length
      = (st.schedule day s).length + cell_pick m cap day s st := by
  rw [backfill_cell_eq]
  have hle : cell_pick m cap day s st ≤ (sorted_eligible st day).length := by
    unfold cell_pick
    omega
  rw [assign_all_sched_len, List.length_take]
  omega

theorem backfill_cell_sched_ne (m cap day : Nat) (s : Shift) (st : SchedState)
    {d2 : Nat} {s2 : Shift} (h : ¬(d2 = day ∧ s2 = s)) :
    (backfill_cell m cap day s st).1.schedule d2 s2 = st.schedule d2 s2 := by
  rw [backfill_cell_eq]
  exact assign_all_sched_ne day s h _ st

theorem cell_pick_le (m cap day : Nat) (s : Shift) (st : SchedState) :
    cell_pick m cap day s st ≤ m - (st.schedule day s).length := by
  unfold cell_pick
  omega

/-! ### The backfill pass: shortage records vs. residual deficits -/

theorem sumNeeds_append (a b : List (Nat × Shift × Nat)) :
    sumNeeds (a ++ b) = sumNeeds a + sumNeeds b := by
  simp [sumNeeds]

theorem backfill_cells_spec (m cap : Nat) :
    ∀ (cells : List (Nat × Shift)) (st : SchedState), cells.Nodup →
      (∀ c : Nat × Shift, c ∉ cells →
        (backfill_cells m cap cells st).1.schedule c.1 c.2 = st.schedule c.1 c.2) ∧
      (List.Sublist ((backfill_cells m cap cells st).2.map (fun x => (x.1, x.2.1))) cells) ∧
      (∀ rec ∈ (backfill_cells m cap cells st).2, 0 < rec.2.2 ∧
        m - ((backfill_cells m cap cells st).1.schedule rec.1 rec.2.1).length = rec.2.2) ∧
      ((cells.map (fun c =>
          m - ((backfill_cells m cap cells st).1.schedule c.1 c.2).length)).sum
        = sumNeeds (backfill_cells m cap cells st).2)
  | [], st, _ => by
    refine ⟨fun c _ => rfl, by simp [backfill_cells], ?_, by simp [backfill_cells, sumNeeds]⟩
    intro rec hrec
    simp [backfill_cells] at hrec
  | c :: cs, st, hnd => by
    obtain ⟨hndc, hndcs⟩ := List.nodup_cons.1 hnd
    set st1 := (backfill_cell m cap c.1 c.2 st).1 with hst1
    obtain ⟨ihframe, ihsub, ihrec, ihsum⟩ := backfill_cells_spec m cap cs st1 hndcs
    set p := cell_pick m cap c.1 c.2 st with hp
    set need := m - (st.schedule c.1 c.2).length with hneed
    have hple : p ≤ need := cell_pick_le m cap c.1 c.2 st
    have hrec0 : (backfill_cell m cap c.1 c.2 st).2
        = if 0 < need - p then [(c.1, c.2, need - p)] else [] := by
      rw [backfill_cell_eq]
    have hsl : (st1.schedule c.1 c.2).length = (st.schedule c.1 c.2).length + p := by
      rw [hst1]
      exact backfill_cell_sched_len m cap c.1 c.2 st
    have hccs : c ∉ cs := hndc
    have hdefc : m - ((backfill_cells m cap cs st1).1.schedule c.1 c.2).length
        = need - p := by
      rw [ihframe c hccs, hsl]
      omega
    have heq : backfill_cells m cap (c :: cs) st
        = ((backfill_cells m cap cs st1).1,
           (backfill_cell m cap c.1 c.2 st).2 ++ (backfill_cells m cap cs st1).2) := rfl
    refine ⟨?_, ?_, ?_, ?_⟩
    · intro c2 hc2
      have hc2c : c2 ≠ c := fun h => hc2 (h ▸ List.mem_cons_self c cs)
      have hc2cs : c2 ∉ cs := fun h => hc2 (List.mem_cons_of_mem c h)
      rw [heq]
      simp only []
      rw [ihframe c2 hc2cs, hst1]
      refine backfill_cell_sched_ne m cap c.1 c.2 st ?_
      rintro ⟨h1, h2⟩
      exact hc2c (by cases c2; cases c; simp_all)
    · rw [heq]
      simp only [List.map_append]
      rw [hrec0]
      by_cases hst : 0 < need - p
      · simp only [hst, if_true, List.map_cons, List.map_nil]
        exact List.Sublist.cons₂ c ihsub
      · simp only [hst, if_false, List.map_nil, List.nil_append]
        exact List.Sublist.cons c ihsub
    · intro rec hrecmem
      rw [heq] at hrecmem
      simp only [List.mem_append] at hrecmem
      rcases hrecmem with hmem0 | hmemr
      · rw [hrec0] at hmem0
        by_cases hst : 0 < need - p
        · simp only [hst, if_true, List.mem_singleton] at hmem0
          subst hmem0
          refine ⟨hst, ?_⟩
          rw [heq]
          exact hdefc
        · simp [hst] at hmem0
      · rw [heq]
        exact ihrec rec hmemr
    · rw [heq]
      simp only [List.map_cons, List.sum_cons]
      rw [sumNeeds_append, hrec0]
      have hsum0 : sumNeeds (if 0 < need - p then [(c.1, c.2, need - p)] else [])
          = need - p := by
        by_cases hst : 0 < need - p
        · simp [hst, sumNeeds]
        · simp only [hst, if_false]
          simp only [sumNeeds, List.map_nil, List.sum_nil]
          omega
      rw [hsum0, hdefc, ihsum]

/-! ### Single-point update of a sum over the grid -/

theorem sum_map_update (f g : Nat × Shift → Nat) :
    ∀ (L : List (Nat × Shift)) (c : Nat × Shift), L.Nodup → c ∈ L →
      (∀ c2 ∈ L, c2 ≠ c → f c2 = g c2) →
      (L.map f).sum + g c = (L.map g).sum + f c
  | [], _, _, h, _ => absurd h (List.not_mem_nil _)
  | a :: L, c, hnd, hc, hfg => by
    obtain ⟨hndh, hndt⟩ := List.nodup_cons.1 hnd
    rcases List.mem_cons.1 hc with rfl | hcL
    · have hcongr : ∀ c2 ∈ L, f c2 = g c2 := fun c2 h2 =>
        hfg c2 (List.mem_cons_of_mem _ h2) (fun he => hndh (he ▸ h2))
      have hmap : L.map f = L.map g := List.map_congr_left hcongr
      simp only [List.map_cons, List.sum_cons, hmap]
      omega
    · have ha : a ≠ c := fun he => hndh (he ▸ hcL)
      have hfa : f a = g a := hfg a (List.mem_cons_self _ _) ha
      have hrec := sum_map_update f g L c hndt hcL
        (fun c2 h2 hne => hfg c2 (List.mem_cons_of_mem _ h2) hne)
      simp only [List.map_cons, List.sum_cons, hfa]
      omega

theorem gridCells_nodup : gridCells.Nodup := by decide

/-! ### The resolver preserves the shortage accounting -/

theorem resolver_sum (cap : Nat) :
    ∀ (recs : List (Nat × Shift × Nat)) (st : SchedState),
      (recs.map (fun x => (x.1, x.2.1))).Nodup →
      (∀ rec ∈ recs, (rec.1, rec.2.1) ∈ gridCells ∧
          2 - (st.schedule rec.1 rec.2.1).length = rec.2.2) →
      deficitSum (resolve_shortages_via_next_day cap recs st).1 + sumNeeds recs
        = deficitSum st + sumNeeds (resolve_shortages_via_next_day cap recs st).2
  | [], st, _, _ => by simp [resolve_shortages_via_next_day, sumNeeds]
  | r :: rest, st, hnd, hrec => by
    obtain ⟨hcell, hdef⟩ := hrec r (List.mem_cons_self r rest)
    rw [List.map_cons] at hnd
    obtain ⟨hndh, hndt⟩ := List.nodup_cons.1 hnd
    obtain ⟨_, hlen, hframe, _, hle⟩ := resolve_loop_spec r.1 r.2.1 r.2.2 cap
      (st.schedule r.1 r.2.1).length (sorted_eligible st r.1) st 0 (by omega) (by omega)
    set e := resolve_loop r.1 r.2.1 r.2.2 cap (sorted_eligible st r.1) st 0 with he
    have hδ : deficitSum e.1 + e.2 = deficitSum st := by
      unfold deficitSum
      have hupd := sum_map_update (fun c => 2 - (e.1.schedule c.1 c.2).length)
        (fun c => 2 - (st.schedule c.1 c.2).length) gridCells (r.1, r.2.1)
        gridCells_nodup hcell ?_
      · simp only [] at hupd
        rw [hlen] at hupd
        omega
      · intro c2 hc2 hne
        simp only []
        rw [hframe c2.1 c2.2 ?_]
        rintro ⟨h1, h2⟩
        exact hne (by cases c2; simp_all)
    have hIH := resolver_sum cap rest e.1 hndt ?_
    · have heq : resolve_shortages_via_next_day cap (r :: rest) st
          = ((resolve_shortages_via_next_day cap rest e.1).1,
             (if 0 < r.2.2 - e.2 then [(r.1, r.2.1, r.2.2 - e.2)] else [])
               ++ (resolve_shortages_via_next_day cap rest e.1).2) := rfl
      rw [heq]
      simp only []
      rw [sumNeeds_append]
      have hsum0 : sumNeeds (if 0 < r.2.2 - e.2 then [(r.1, r.2.1, r.2.2 - e.2)] else [])
          = r.2.2 - e.2 := by
        by_cases hst : 0 < r.2.2 - e.2
        · simp [hst, sumNeeds]
        · simp only [hst, if_false]
          simp only [sumNeeds, List.map_nil, List.sum_nil]
          omega
      have hsumcons : sumNeeds (r :: rest) = r.2.2 + sumNeeds rest := by
        simp [sumNeeds]
      rw [hsum0, hsumcons]
      omega
    · intro rec2 hrec2
      obtain ⟨hc2, hd2⟩ := hrec rec2 (List.mem_cons_of_mem r hrec2)
      refine ⟨hc2, ?_⟩
      rw [hframe rec2.1 rec2.2.1 ?_]
      · exact hd2
      · rintro ⟨h1, h2⟩
        refine hndh ?_
        have : (rec2.1, rec2.2.1) = (r.1, r.2.1) := by rw [h1, h2]
        rw [← this]
        exact List.mem_map_of_mem (fun x => (x.1, x.2.1)) hrec2

/-- After the backfill, the total residual deficit over the grid equals
the sum of the reported shortages, and the records satisfy the
per-record hypotheses the resolver needs. -/
theorem ensure_minimum_staffing_spec (cap : Nat) (st : SchedState) :
    deficitSum (ensure_minimum_staffing 2 cap st).1
        = sumNeeds (ensure_minimum_staffing 2 cap st).2 ∧
      ((ensure_minimum_staffing 2 cap st).2.map (fun x => (x.1, x.2.1))).Nodup ∧
      (∀ rec ∈ (ensure_minimum_staffing 2 cap st).2, (rec.1, rec.2.1) ∈ gridCells ∧
        2 - ((ensure_minimum_staffing 2 cap st).1.schedule rec.1 rec.2.1).length
          = rec.2.2) := by
  unfold ensure_minimum_staffing
  obtain ⟨_, hsub, hrec, hsum⟩ := backfill_cells_spec 2 cap gridCells st gridCells_nodup
  exact ⟨hsum, List.Nodup.sublist hsub gridCells_nodup,
    fun rec hrecmem =>
      ⟨hsub.subset (List.mem_map_of_mem _ hrecmem), (hrec rec hrecmem).2⟩⟩

/-- After the shortage resolver, the total residual deficit over the grid
equals the sum of the residual shortages the resolver returned. -/
theorem deficit_after_resolver (cap : Nat) (orders : Nat → List Nat) (n : Nat)
    (f : Nat → Employee) :
    deficitSum (run_resolver cap orders n f).1 = sumNeeds (run_resolver cap orders n f).2 := by
  obtain ⟨hsum, hnd, hhyp⟩ := ensure_minimum_staffing_spec cap (run_pass1 cap orders n f)
  unfold run_resolver run_backfill
  by_cases h : (ensure_minimum_staffing 2 cap (run_pass1 cap orders n f)).2 = []
  · simp only [h, if_true]
    rw [h] at hsum
    simp only [sumNeeds, List.map_nil, List.sum_nil] at hsum ⊢
    exact hsum
  · simp only [h, if_false]
    have := resolver_sum cap (ensure_minimum_staffing 2 cap (run_pass1 cap orders n f)).2
      (ensure_minimum_staffing 2 cap (run_pass1 cap orders n f)).1 hnd hhyp
    omega

/-! ### The run as a chain of guarded steps -/

theorem initState_nemps (n : Nat) (f : Nat → Employee) : (initState n f).nemps = n := rfl

theorem initState_capInv (cap n : Nat) (f : Nat → Employee) : CapInv cap (initState n f) :=
  fun _ _ => Nat.zero_le cap

theorem steps_init_to_pass1 (cap : Nat) (orders : Nat → List Nat) (n : Nat)
    (f : Nat → Employee) (hord : OrdersValid orders n) :
    Steps cap (initState n f) (run_pass1 cap orders n f) :=
  steps_preference_pass cap orders (initState n f) hord

theorem steps_pass1_to_backfill (cap : Nat) (orders : Nat → List Nat) (n : Nat)
    (f : Nat → Employee) :
    Steps cap (run_pass1 cap orders n f) (run_backfill cap orders n f).1 :=
  steps_ensure_minimum_staffing 2 cap (run_pass1 cap orders n f)

theorem steps_backfill_to_resolver (cap : Nat) (orders : Nat → List Nat) (n : Nat)
    (f : Nat → Employee) :
    Steps cap (run_backfill cap orders n f).1 (run_resolver cap orders n f).1 := by
  unfold run_resolver
  by_cases h : (run_backfill cap orders n f).2 = []
  · simp only [h, if_true]
    exact Steps.refl cap _
  · simp only [h, if_false]
    exact steps_resolver cap (run_backfill cap orders n f).2 (run_backfill cap orders n f).1

theorem steps_resolver_to_fill (cap : Nat) (orders : Nat → List Nat) (n : Nat)
    (f : Nat → Employee) :
    Steps cap (run_resolver cap orders n f).1 (run_fill cap orders n f) :=
  steps_fill_remaining cap (run_resolver cap orders n f).1

theorem steps_init_to_resolver (cap : Nat) (orders : Nat → List Nat) (n : Nat)
    (f : Nat → Employee) (hord : OrdersValid orders n) :
    Steps cap (initState n f) (run_resolver cap orders n f).1 :=
  ((steps_init_to_pass1 cap orders n f hord).trans
    (steps_pass1_to_backfill cap orders n f)).trans
    (steps_backfill_to_resolver cap orders n f)

theorem steps_init_to_fill (cap : Nat) (orders : Nat → List Nat) (n : Nat)
    (f : Nat → Employee) (hord : OrdersValid orders n) :
    Steps cap (initState n f) (run_fill cap orders n f) :=
  (steps_init_to_resolver cap orders n f hord).trans (steps_resolver_to_fill cap orders n f)

/-! ### Coverage maximality of the final sweep -/


theorem monole_disjAt {cap d : Nat} {st st2 : SchedState} {i : Nat} (h : monole st st2)
    (hd : DisjAt cap d st i) : DisjAt cap d st2 i := by
  obtain ⟨hn, hs, hdays, hlook⟩ := h
  rcases hd with h1 | h2 | h3
  · left
    rcases hv : (st.emps i).assigned_shifts.lookup d with _ | v
    · exact absurd hv h1
    · rw [hlook i d v hv]
      simp
  · right; left
    exact le_trans h2 (hdays i)
  · right; right
    intro s
    obtain ⟨t, ht⟩ := hs d s
    rw [ht]
    simp only [List.length_append]
    exact le_trans (h3 s) (Nat.le_add_right _ _)

theorem fill_worker_disjAt (cap d : Nat) (st : SchedState) (i : Nat) :
    DisjAt cap d (fill_worker cap d st i) i := by
  unfold fill_worker
  by_cases hca : can_assign (st.emps i) d = true
  · simp only [hca, if_true]
    by_cases hb : (assign_first cap d i ((st.emps i).preferences d) st).2 = true
    · simp only [hb, if_true]
      obtain ⟨sh, _, _, heq⟩ := assign_first_true_spec cap d i _ st hb
      rw [heq]
      left
      rw [assign_emps_self]
      simp only []
      rw [lookup_cons, if_pos rfl]
      simp
    · simp only [Bool.not_eq_true] at hb
      simp only [hb, Bool.false_eq_true, if_false]
      obtain ⟨heq, _⟩ := assign_first_false_spec cap d i _ st hb
      rw [heq]
      by_cases hb2 : (assign_first cap d i SHIFTS st).2 = true
      · obtain ⟨sh, _, _, heq2⟩ := assign_first_true_spec cap d i SHIFTS st hb2
        rw [heq2]
        left
        rw [assign_emps_self]
        simp only []
        rw [lookup_cons, if_pos rfl]
        simp
      · simp only [Bool.not_eq_true] at hb2
        obtain ⟨heq2, hfull⟩ := assign_first_false_spec cap d i SHIFTS st hb2
        rw [heq2]
        right; right
        intro s
        exact hfull s (by cases s <;> simp [SHIFTS])
  · simp only [Bool.not_eq_true] at hca
    simp only [hca, Bool.false_eq_true, if_false]
    rcases (can_assign_false_iff (st.emps i) d).1 hca with h1 | h2
    · exact Or.inl h1
    · exact Or.inr (Or.inl h2)

theorem fill_fold_disjAt (cap d : Nat) :
    ∀ (L : List Nat) (st : SchedState), (∀ i ∈ L, i < st.nemps) →
      (∀ i, i < st.nemps → i ∉ L → DisjAt cap d st i) →
      ∀ i, i < (L.foldl (fill_worker cap d) st).nemps →
        DisjAt cap d (L.foldl (fill_worker cap d) st) i
  | [], st, _, hrest, i, hi => hrest i hi (List.not_mem_nil i)
  | j :: rest, st, hmem, hrest, i, hi => by
    have hj : j < st.nemps := hmem j (List.mem_cons_self j rest)
    have hstep : Steps cap st (fill_worker cap d st j) := steps_fill_worker cap d st j hj
    have hn : (fill_worker cap d st j).nemps = st.nemps := steps_nemps hstep
    have heq : (j :: rest).foldl (fill_worker cap d) st
        = rest.foldl (fill_worker cap d) (fill_worker cap d st j) := rfl
    rw [heq] at hi ⊢
    refine fill_fold_disjAt cap d rest (fill_worker cap d st j)
      (fun i2 hi2 => by rw [hn]; exact hmem i2 (List.mem_cons_of_mem j hi2)) ?_ i hi
    intro i2 hi2 hnotr
    by_cases hij : i2 = j
    · subst hij
      exact fill_worker_disjAt cap d st i2
    · have : i2 ∉ j :: rest := by
        intro hm
        rcases List.mem_cons.1 hm with h | h
        · exact hij h
        · exact hnotr h
      exact monole_disjAt (steps_monole hstep) (hrest i2 (by rw [hn] at hi2; exact hi2) this)

theorem fill_days_disjAt (cap d : Nat) :
    ∀ (ds : List Nat) (st : SchedState), d ∈ ds →
      ∀ i, i < (ds.foldl
          (fun st day => (List.range st.nemps).foldl (fill_worker cap day) st) st).nemps →
        DisjAt cap d (ds.foldl
          (fun st day => (List.range st.nemps).foldl (fill_worker cap day) st) st) i
  | [], _, hd, _, _ => absurd hd (List.not_mem_nil d)
  | d2 :: rest, st, hd, i, hi => by
    have heq : (d2 :: rest).foldl
          (fun st day => (List.range st.nemps).foldl (fill_worker cap day) st) st
        = rest.foldl (fun st day => (List.range st.nemps).foldl (fill_worker cap day) st)
            ((List.range st.nemps).foldl (fill_worker cap d2) st) := rfl
    rw [heq] at hi ⊢
    by_cases hdd : d = d2
    · subst hdd
      have hday : ∀ i2, i2 < ((List.range st.nemps).foldl (fill_worker cap d) st).nemps →
          DisjAt cap d ((List.range st.nemps).foldl (fill_worker cap d) st) i2 := by
        refine fill_fold_disjAt cap d (List.range st.nemps) st
          (fun i2 hi2 => List.mem_range.1 hi2) ?_
        intro i2 hi2 hnot
        exact absurd (List.mem_range.2 hi2) hnot
      have hrest := steps_fill_days cap rest ((List.range st.nemps).foldl (fill_worker cap d) st)
      have hn := steps_nemps hrest
      exact monole_disjAt (steps_monole hrest) (hday i (by rw [hn] at hi; exact hi))
    · have hdrest : d ∈ rest := by
        rcases List.mem_cons.1 hd with h | h
        · exact absurd h hdd
        · exact h
      exact fill_days_disjAt cap d rest _ hdrest i hi

theorem fill_remaining_disjAt (cap : Nat) (st : SchedState) (d : Nat) (hd : d < 7) :
    ∀ i, i < (fill_remaining_with_available cap st).nemps →
      DisjAt cap d (fill_remaining_with_available cap st) i :=
  fill_days_disjAt cap d (List.range 7) st (List.mem_range.2 hd)

/-! ### One shift per day: the schedule mirrors `assigned_shifts` -/


theorem lookup_none_iff (d : Nat) :
    ∀ l : List (Nat × Shift), l.lookup d = none ↔ d ∉ l.map Prod.fst
  | [] => by simp
  | (k, v) :: t => by
    rw [lookup_cons]
    by_cases h : d = k
    · simp [h]
    · simp [h, lookup_none_iff d t]

theorem goodAssign_names {cap : Nat} {st st2 : SchedState} (h : goodAssign cap st st2) :
    ∀ j, (st2.emps j).name = (st.emps j).name := by
  obtain ⟨i, day, s, _, _, _, rfl⟩ := h
  intro j
  by_cases hji : j = i
  · subst hji
    rw [assign_emps_self]
  · rw [assign_emps_ne st i day s hji]

theorem goodAssign_namesOK {cap : Nat} {st st2 : SchedState} (h : goodAssign cap st st2)
    (hn : NamesOK st) : NamesOK st2 := by
  intro i j hi hj hij
  rw [goodAssign_names h i, goodAssign_names h j, goodAssign_nemps h] at *
  exact hn i j hi hj hij

theorem goodAssign_mirror {cap : Nat} {st st2 : SchedState} (h : goodAssign cap st st2)
    (hn : NamesOK st) (hm : MirrorInv st) : MirrorInv st2 := by
  obtain ⟨i, day, s, hi, hca, hcap, rfl⟩ := h
  obtain ⟨hkeys, hmir⟩ := hm
  have hnone := ((can_assign_iff (st.emps i) day).1 hca).1
  constructor
  · intro j hj
    rw [assign_nemps] at hj
    by_cases hji : j = i
    · subst hji
      rw [assign_emps_self]
      simp only [List.map_cons]
      refine List.nodup_cons.2 ⟨?_, hkeys j hj⟩
      exact (lookup_none_iff day _).1 hnone
    · rw [assign_emps_ne st i day s hji]
      exact hkeys j hj
  · intro j hj d2 s2
    rw [assign_nemps] at hj
    by_cases hji : j = i
    · subst hji
      rw [assign_emps_self]
      simp only []
      rw [lookup_cons]
      by_cases hd : d2 = day
      · subst hd
        rw [if_pos rfl]
        by_cases hs : s2 = s
        · subst hs
          rw [assign_schedule_self]
          simp
        · rw [assign_schedule_ne st j d2 s (fun hx => hs hx.2)]
          constructor
          · intro hmem
            have := (hmir j hj d2 s2).1 hmem
            rw [hnone] at this
            cases this
          · intro heqv
            exact absurd (Option.some.inj heqv).symm hs
      · rw [if_neg hd]
        by_cases hs : d2 = day ∧ s2 = s
        · exact absurd hs.1 hd
        · rw [assign_schedule_ne st j day s hs]
          exact hmir j hj d2 s2
    · rw [assign_emps_ne st i day s hji]
      by_cases hds : d2 = day ∧ s2 = s
      · obtain ⟨rfl, rfl⟩ := hds
        rw [assign_schedule_self]
        have hne : (st.emps j).name ≠ (st.emps i).name := hn j i hj hi hji
        rw [List.mem_append]
        simp only [List.mem_singleton, hne, or_false]
        exact hmir j hj d2 s2
      · rw [assign_schedule_ne st i day s hds]
        exact hmir j hj d2 s2

theorem steps_mirror {cap : Nat} {st st2 : SchedState} (h : Steps cap st st2)
    (hn : NamesOK st) (hm : MirrorInv st) : NamesOK st2 ∧ MirrorInv st2 := by
  induction h with
  | refl => exact ⟨hn, hm⟩
  | tail _ h2 ih =>
    exact ⟨goodAssign_namesOK h2 ih.1, goodAssign_mirror h2 ih.1 ih.2⟩

theorem initState_mirror (n : Nat) (f : Nat → Employee)
    (hf : ∀ i, i < n → FreshEmp (f i)) : MirrorInv (initState n f) := by
  constructor
  · intro i hi
    have hfr := (hf i hi).2
    simp only [initState] at hfr ⊢
    rw [hfr]
    simp
  · intro i hi d s
    have hfr := (hf i hi).2
    simp only [initState] at hfr ⊢
    rw [hfr]
    simp [initialize_schedule, List.lookup]

/-- Distinct day keys bound the number of entries for one day by 1. -/
theorem keys_nodup_filter_le (d : Nat) :
    ∀ l : List (Nat × Shift), (l.map Prod.fst).Nodup →
      (l.filter (fun p => p.1 == d)).length ≤ 1
  | [], _ => by simp
  | (k, v) :: t, h => by
    rw [List.map_cons] at h
    obtain ⟨hk, ht⟩ := List.nodup_cons.1 h
    by_cases hkd : k = d
    · subst hkd
      rw [List.filter_cons_of_pos (by simp)]
      have : t.filter (fun p => p.1 == k) = [] := by
        rw [List.filter_eq_nil_iff]
        intro p hp
        simp only [beq_iff_eq]
        intro hpk
        apply hk
        rw [← hpk]
        exact List.mem_map.2 ⟨p, hp, rfl⟩
      rw [List.length_cons, this]
      simp
    · rw [List.filter_cons_of_neg (by simpa using hkd)]
      exact keys_nodup_filter_le d t ht

/-! ### Frame lemmas for the preference pass (days do not interfere) -/

theorem pass1_worker_cases (cap day : Nat) (st : SchedState) (i : Nat) :
    pass1_worker cap day st i = st ∨
      ∃ sh, pass1_worker cap day st i = assign_employee_to_shift st i day sh := by
  unfold pass1_worker
  by_cases hca : can_assign (st.emps i) day = true
  · simp only [hca, if_true]
    by_cases hb : (assign_first cap day i ((st.emps i).preferences day) st).2 = true
    · obtain ⟨sh, _, _, heq⟩ := assign_first_true_spec cap day i _ st hb
      right
      exact ⟨sh, by simp only [hb, if_true]; exact heq⟩
    · simp only [Bool.not_eq_true] at hb
      simp only [hb, Bool.false_eq_true, if_false]
      obtain ⟨heq, _⟩ := assign_first_false_spec cap day i _ st hb
      rw [heq, assign_first_nonpref_eq]
      rcases hf : (SHIFTS.filter
          (fun sh => !(decide (sh ∈ (st.emps i).preferences day)))).find?
          (fun sh => decide ((st.schedule day sh).length < cap)) with _ | sh
      · left; trivial
      · right; exact ⟨sh, rfl⟩
  · simp only [Bool.not_eq_true] at hca
    simp only [hca, Bool.false_eq_true, if_false]
    left; trivial

theorem pass1_worker_sched_ne (cap day : Nat) (st : SchedState) (i : Nat) {d0 : Nat}
    (h : d0 ≠ day) (s0 : Shift) :
    (pass1_worker cap day st i).schedule d0 s0 = st.schedule d0 s0 := by
  rcases pass1_worker_cases cap day st i with heq | ⟨sh, heq⟩ <;> rw [heq]
  exact assign_schedule_ne st i day sh (fun hx => h hx.1)

theorem pass1_worker_lookup_ne (cap day : Nat) (st : SchedState) (i : Nat) {d0 : Nat}
    (h : d0 ≠ day) (j : Nat) :
    ((pass1_worker cap day st i).emps j).assigned_shifts.lookup d0
      = (st.emps j).assigned_shifts.lookup d0 := by
  rcases pass1_worker_cases cap day st i with heq | ⟨sh, heq⟩ <;> rw [heq]
  by_cases hji : j = i
  · subst hji
    rw [assign_emps_self]
    simp only []
    rw [lookup_cons, if_neg h]
  · rw [assign_emps_ne st i day sh hji]

theorem day_pass_sched_ne (cap day : Nat) {d0 : Nat} (h : d0 ≠ day) (s0 : Shift) :
    ∀ (order : List Nat) (st : SchedState),
      (schedule_day_pass cap day order st).schedule d0 s0 = st.schedule d0 s0
  | [], _ => rfl
  | i :: rest, st => by
    have heq : schedule_day_pass cap day (i :: rest) st
        = schedule_day_pass cap day rest (pass1_worker cap day st i) := rfl
    rw [heq, day_pass_sched_ne cap day h s0 rest, pass1_worker_sched_ne cap day st i h s0]

theorem day_pass_lookup_ne (cap day : Nat) {d0 : Nat} (h : d0 ≠ day) (j : Nat) :
    ∀ (order : List Nat) (st : SchedState),
      ((schedule_day_pass cap day order st).emps j).assigned_shifts.lookup d0
        = ((st.emps j).assigned_shifts).lookup d0
  | [], _ => rfl
  | i :: rest, st => by
    have heq : schedule_day_pass cap day (i :: rest) st
        = schedule_day_pass cap day rest (pass1_worker cap day st i) := rfl
    rw [heq, day_pass_lookup_ne cap day h j rest, pass1_worker_lookup_ne cap day st i h j]

theorem days_fold_sched_ne (cap : Nat) (orders : Nat → List Nat) {d0 : Nat} (s0 : Shift) :
    ∀ (ds : List Nat) (st : SchedState), d0 ∉ ds →
      ((ds.foldl (fun st2 day => schedule_day_pass cap day (orders day) st2) st).schedule
          d0 s0)
        = st.schedule d0 s0
  | [], _, _ => rfl
  | d2 :: rest, st, hnot => by
    have hne : d0 ≠ d2 := fun h => hnot (h ▸ List.mem_cons_self d2 rest)
    have hrest : d0 ∉ rest := fun h => hnot (List.mem_cons_of_mem d2 h)
    have heq : (d2 :: rest).foldl (fun st2 day => schedule_day_pass cap day (orders day) st2) st
        = rest.foldl (fun st2 day => schedule_day_pass cap day (orders day) st2)
            (schedule_day_pass cap d2 (orders d2) st) := rfl
    rw [heq, days_fold_sched_ne cap orders s0 rest _ hrest,
      day_pass_sched_ne cap d2 hne s0 (orders d2) st]

theorem days_fold_lookup_ne (cap : Nat) (orders : Nat → List Nat) {d0 : Nat} (j : Nat) :
    ∀ (ds : List Nat) (st : SchedState), d0 ∉ ds →
      (((ds.foldl (fun st2 day => schedule_day_pass cap day (orders day) st2) st).emps
          j).assigned_shifts.lookup d0)
        = ((st.emps j).assigned_shifts).lookup d0
  | [], _, _ => rfl
  | d2 :: rest, st, hnot => by
    have hne : d0 ≠ d2 := fun h => hnot (h ▸ List.mem_cons_self d2 rest)
    have hrest : d0 ∉ rest := fun h => hnot (List.mem_cons_of_mem d2 h)
    have heq : (d2 :: rest).foldl (fun st2 day => schedule_day_pass cap day (orders day) st2) st
        = rest.foldl (fun st2 day => schedule_day_pass cap day (orders day) st2)
            (schedule_day_pass cap d2 (orders d2) st) := rfl
    rw [heq, days_fold_lookup_ne cap orders j rest _ hrest,
      day_pass_lookup_ne cap d2 hne j (orders d2) st]

/-! ### The 3-worker, capacity-1, all-prefer-morning scenario -/

theorem can_assign_fresh (e : Employee) (h : FreshEmp e) (d : Nat) :
    can_assign e d = true := by
  rw [can_assign_iff, h.1, h.2]
  exact ⟨rfl, by omega⟩

theorem pw_takes_pref (cap day : Nat) (st : SchedState) (i : Nat) (sh : Shift)
    (hca : can_assign (st.emps i) day = true)
    (hpref : (st.emps i).preferences day = [sh])
    (hlen : (st.schedule day sh).length < cap) :
    pass1_worker cap day st i = assign_employee_to_shift st i day sh := by
  unfold pass1_worker
  simp only [hca, if_true, hpref]
  simp [assign_first, hlen]

theorem pw_fallback_afternoon (cap day : Nat) (st : SchedState) (i : Nat)
    (hca : can_assign (st.emps i) day = true)
    (hpref : (st.emps i).preferences day = [Shift.morning])
    (hm : ¬((st.schedule day Shift.morning).length < cap))
    (ha : (st.schedule day Shift.afternoon).length < cap) :
    pass1_worker cap day st i = assign_employee_to_shift st i day Shift.afternoon := by
  unfold pass1_worker
  simp only [hca, if_true, hpref]
  simp [assign_first, assign_first_nonpref, SHIFTS, hm, ha]

theorem pw_fallback_evening (cap day : Nat) (st : SchedState) (i : Nat)
    (hca : can_assign (st.emps i) day = true)
    (hpref : (st.emps i).preferences day = [Shift.morning])
    (hm : ¬((st.schedule day Shift.morning).length < cap))
    (ha : ¬((st.schedule day Shift.afternoon).length < cap))
    (he : (st.schedule day Shift.evening).length < cap) :
    pass1_worker cap day st i = assign_employee_to_shift st i day Shift.evening := by
  unfold pass1_worker
  simp only [hca, if_true, hpref]
  simp [assign_first, assign_first_nonpref, SHIFTS, hm, ha, he]

theorem perm_three (l : List Nat) (h : l.Perm [0, 1, 2]) :
    l = [0, 1, 2] ∨ l = [0, 2, 1] ∨ l = [1, 0, 2] ∨ l = [1, 2, 0] ∨
      l = [2, 0, 1] ∨ l = [2, 1, 0] := by
  have hlen : l.length = 3 := h.length_eq
  have hnd : l.Nodup := (h.nodup_iff).2 (by decide)
  rcases l with _ | ⟨a, _ | ⟨b, _ | ⟨c, _ | ⟨d, t⟩⟩⟩⟩ <;> simp only [List.length_nil,
    List.length_cons] at hlen
  · omega
  · omega
  · omega
  · have ha : a ∈ [0, 1, 2] := h.mem_iff.1 (by simp)
    have hb : b ∈ [0, 1, 2] := h.mem_iff.1 (by simp)
    have hc : c ∈ [0, 1, 2] := h.mem_iff.1 (by simp)
    simp only [List.mem_cons, List.not_mem_nil, or_false] at ha hb hc
    simp only [List.nodup_cons, List.mem_cons, List.not_mem_nil, or_false,
      List.nodup_nil, and_true] at hnd
    rcases ha with rfl | rfl | rfl <;> rcases hb with rfl | rfl | rfl <;>
      rcases hc with rfl | rfl | rfl <;> simp_all
  · omega

theorem day0_scenario (f : Nat → Employee) (a b c : Nat)
    (ha : a < 3) (hb : b < 3) (hc : c < 3) (hab : a ≠ b) (hac : a ≠ c) (hbc : b ≠ c)
    (hf : ∀ i, i < 3 → FreshEmp (f i) ∧ (f i).preferences 0 = [Shift.morning]) :
    ((schedule_day_pass 1 0 [a, b, c] (initState 3 f)).schedule 0 Shift.morning).length = 1 ∧
    ((schedule_day_pass 1 0 [a, b, c] (initState 3 f)).schedule 0 Shift.afternoon).length = 1 ∧
    ((schedule_day_pass 1 0 [a, b, c] (initState 3 f)).schedule 0 Shift.evening).length = 1 ∧
    (∀ i, i < 3 →
      ((schedule_day_pass 1 0 [a, b, c] (initState 3 f)).emps i).assigned_shifts.lookup 0
        ≠ none) := by
  obtain ⟨hfra, hprefa⟩ := hf a ha
  obtain ⟨hfrb, hprefb⟩ := hf b hb
  obtain ⟨hfrc, hprefc⟩ := hf c hc
  set st0 := initState 3 f with hst0
  have hs0 : ∀ d s, st0.schedule d s = [] := fun d s => rfl
  have hnm : ¬(0 = 0 ∧ Shift.afternoon = Shift.morning) := by simp
  have hne : ¬(0 = 0 ∧ Shift.evening = Shift.morning) := by simp
  have hnea : ¬(0 = 0 ∧ Shift.evening = Shift.afternoon) := by simp
  have hnma : ¬(0 = 0 ∧ Shift.morning = Shift.afternoon) := by simp
  have hnme : ¬(0 = 0 ∧ Shift.morning = Shift.evening) := by simp
  have hnae : ¬(0 = 0 ∧ Shift.afternoon = Shift.evening) := by simp
  have h1 : pass1_worker 1 0 st0 a = assign_employee_to_shift st0 a 0 Shift.morning :=
    pw_takes_pref 1 0 st0 a Shift.morning (can_assign_fresh _ hfra 0) hprefa
      (by rw [hs0 0 Shift.morning]; decide)
  set st1 := assign_employee_to_shift st0 a 0 Shift.morning with hst1
  have hm1 : st1.schedule 0 Shift.morning = [(f a).name] := by
    rw [hst1, assign_schedule_self, hs0 0 Shift.morning]
    rfl
  have haft1 : st1.schedule 0 Shift.afternoon = [] := by
    rw [hst1, assign_schedule_ne st0 a 0 Shift.morning hnm]
    exact hs0 0 Shift.afternoon
  have hev1 : st1.schedule 0 Shift.evening = [] := by
    rw [hst1, assign_schedule_ne st0 a 0 Shift.morning hne]
    exact hs0 0 Shift.evening
  have hempb1 : st1.emps b = f b := by
    rw [hst1, assign_emps_ne st0 a 0 Shift.morning (Ne.symm hab)]
    rfl
  have hempc1 : st1.emps c = f c := by
    rw [hst1, assign_emps_ne st0 a 0 Shift.morning (Ne.symm hac)]
    rfl
  have h2 : pass1_worker 1 0 st1 b = assign_employee_to_shift st1 b 0 Shift.afternoon :=
    pw_fallback_afternoon 1 0 st1 b
      (by rw [hempb1]; exact can_assign_fresh _ hfrb 0)
      (by rw [hempb1]; exact hprefb)
      (by rw [hm1]; simp)
      (by rw [haft1]; decide)
  set st2 := assign_employee_to_shift st1 b 0 Shift.afternoon with hst2
  have hm2 : st2.schedule 0 Shift.morning = [(f a).name] := by
    rw [hst2, assign_schedule_ne st1 b 0 Shift.afternoon hnma]
    exact hm1
  have haft2 : st2.schedule 0 Shift.afternoon = [(st1.emps b).name] := by
    rw [hst2, assign_schedule_self, haft1]
    rfl
  have hev2 : st2.schedule 0 Shift.evening = [] := by
    rw [hst2, assign_schedule_ne st1 b 0 Shift.afternoon hnea]
    exact hev1
  have hempc2 : st2.emps c = f c := by
    rw [hst2, assign_emps_ne st1 b 0 Shift.afternoon (Ne.symm hbc)]
    exact hempc1
  have h3 : pass1_worker 1 0 st2 c = assign_employee_to_shift st2 c 0 Shift.evening :=
    pw_fallback_evening 1 0 st2 c
      (by rw [hempc2]; exact can_assign_fresh _ hfrc 0)
      (by rw [hempc2]; exact hprefc)
      (by rw [hm2]; simp)
      (by rw [haft2]; simp)
      (by rw [hev2]; decide)
  set st3 := assign_employee_to_shift st2 c 0 Shift.evening with hst3
  have hrun : schedule_day_pass 1 0 [a, b, c] st0 = st3 := by
    have e1 : schedule_day_pass 1 0 [a, b, c] st0
        = schedule_day_pass 1 0 [b, c] (pass1_worker 1 0 st0 a) := rfl
    rw [e1, h1]
    have e2 : schedule_day_pass 1 0 [b, c] st1
        = schedule_day_pass 1 0 [c] (pass1_worker 1 0 st1 b) := rfl
    rw [e2, h2]
    have e3 : schedule_day_pass 1 0 [c] st2
        = schedule_day_pass 1 0 [] (pass1_worker 1 0 st2 c) := rfl
    rw [e3, h3]
    rfl
  rw [hrun]
  have hm3 : st3.schedule 0 Shift.morning = [(f a).name] := by
    rw [hst3, assign_schedule_ne st2 c 0 Shift.evening hnme]
    exact hm2
  have haft3 : st3.schedule 0 Shift.afternoon = [(st1.emps b).name] := by
    rw [hst3, assign_schedule_ne st2 c 0 Shift.evening hnae]
    exact haft2
  have hev3 : st3.schedule 0 Shift.evening = [(st2.emps c).name] := by
    rw [hst3, assign_schedule_self, hev2]
    rfl
  refine ⟨by rw [hm3]; rfl, by rw [haft3]; rfl, by rw [hev3]; rfl, ?_⟩
  intro i hi
  have hia : i = a ∨ i = b ∨ i = c := by omega
  have hlka : (st3.emps a).assigned_shifts.lookup 0 = some Shift.morning := by
    have e1 : st3.emps a = st1.emps a := by
      rw [hst3, hst2, assign_emps_ne _ c 0 Shift.evening hac,
        assign_emps_ne _ b 0 Shift.afternoon hab]
    rw [e1, hst1, assign_emps_self]
    simp only []
    rw [lookup_cons, if_pos rfl]
  have hlkb : (st3.emps b).assigned_shifts.lookup 0 = some Shift.afternoon := by
    have e1 : st3.emps b = st2.emps b := by
      rw [hst3, assign_emps_ne _ c 0 Shift.evening hbc]
    rw [e1, hst2, assign_emps_self]
    simp only []
    rw [lookup_cons, if_pos rfl]
  have hlkc : (st3.emps c).assigned_shifts.lookup 0 = some Shift.evening := by
    rw [hst3, assign_emps_self]
    simp only []
    rw [lookup_cons, if_pos rfl]
  rcases hia with rfl | rfl | rfl
  · rw [hlka]; simp
  · rw [hlkb]; simp
  · rw [hlkc]; simp



theorem mirror_oneShift (st : SchedState) (h : MirrorInv st) : OneShiftPerDay st :=
  fun i hi d => ⟨keys_nodup_filter_le d _ (h.1 i hi), fun s => h.2 i hi d s⟩

/-! ### The claims -/

/-- C6: the preference pass's per-worker placement rule — an eligible
worker is assigned the first preferred shift with remaining capacity,
else the first non-preferred shift in canonical order with capacity, else
left unassigned with no error; an ineligible worker is skipped. -/
theorem claim_C6 (cap day : Nat) (st : SchedState) (i : Nat) :
    pass1_worker cap day st i =
      if can_assign (st.emps i) day then
        match ((st.emps i).preferences day).find?
            (fun sh => decide ((st.schedule day sh).length < cap)) with
        | some sh => assign_employee_to_shift st i day sh
        | none =>
          match (SHIFTS.filter
              (fun sh => !(decide (sh ∈ (st.emps i).preferences day)))).find?
              (fun sh => decide ((st.schedule day sh).length < cap)) with
          | some sh => assign_employee_to_shift st i day sh
          | none => st
      else st := by
  unfold pass1_worker
  by_cases hca : can_assign (st.emps i) day = true
  · simp only [hca, if_true]
    rw [assign_first_eq]
    rcases hff : ((st.emps i).preferences day).find?
        (fun sh => decide ((st.schedule day sh).length < cap)) with _ | sh
    · simp only []
      rw [assign_first_nonpref_eq]
      rcases hf2 : (SHIFTS.filter
          (fun sh => !(decide (sh ∈ (st.emps i).preferences day)))).find?
          (fun sh => decide ((st.schedule day sh).length < cap)) with _ | sh2
      · rfl
      · rfl
    · rfl
  · simp only [Bool.not_eq_true] at hca
    simp only [hca, Bool.false_eq_true, if_false]

/-- C3: capacity invariant — starting from the empty schedule with
`maxPerShift ≥ 1`, after each of the four passes every cell holds at most
`maxPerShift` names. -/
theorem claim_C3 (cap : Nat) (orders : Nat → List Nat) (n : Nat) (f : Nat → Employee)
    (hcap : 1 ≤ cap) (hord : OrdersValid orders n) :
    CapInv cap (run_pass1 cap orders n f) ∧
    CapInv cap (run_backfill cap orders n f).1 ∧
    CapInv cap (run_resolver cap orders n f).1 ∧
    CapInv cap (run_fill cap orders n f) := by
  have h0 : CapInv cap (initState n f) := initState_capInv cap n f
  have h1 := steps_capInv (steps_init_to_pass1 cap orders n f hord) h0
  have h2 := steps_capInv (steps_pass1_to_backfill cap orders n f) h1
  have h3 := steps_capInv (steps_backfill_to_resolver cap orders n f) h2
  have h4 := steps_capInv (steps_resolver_to_fill cap orders n f) h3
  exact ⟨h1, h2, h3, h4⟩

theorem claim_C3_witness :
    1 ≤ 1 ∧ OrdersValid w_orders 1 ∧
      (CapInv 1 (run_pass1 1 w_orders 1 w_f) ∧
       CapInv 1 (run_backfill 1 w_orders 1 w_f).1 ∧
       CapInv 1 (run_resolver 1 w_orders 1 w_f).1 ∧
       CapInv 1 (run_fill 1 w_orders 1 w_f)) :=
  ⟨le_refl 1,
   fun d i hi => by simp only [w_orders, List.mem_singleton] at hi; omega,
   claim_C3 1 w_orders 1 w_f (le_refl 1)
     (fun d i hi => by simp only [w_orders, List.mem_singleton] at hi; omega)⟩

/-- C4: weekly-cap invariant — starting from workers with empty
assignment state, after each of the four passes every worker has
`daysAssigned ≤ 5`; and `can_assign` is true exactly when the worker has
no assignment recorded for the day and `daysAssigned < 5`. -/
theorem claim_C4 (cap : Nat) (orders : Nat → List Nat) (n : Nat) (f : Nat → Employee)
    (hord : OrdersValid orders n) (hfresh : ∀ i, i < n → FreshEmp (f i)) :
    DaysInv (run_pass1 cap orders n f) ∧
    DaysInv (run_backfill cap orders n f).1 ∧
    DaysInv (run_resolver cap orders n f).1 ∧
    DaysInv (run_fill cap orders n f) ∧
    (∀ (e : Employee) (d : Nat), can_assign e d = true ↔
      (e.assigned_shifts.lookup d = none ∧ e.days_assigned < 5)) := by
  have h0 : DaysInv (initState n f) := by
    intro i hi
    have hd : (f i).days_assigned = 0 := (hfresh i hi).1
    show (f i).days_assigned ≤ 5
    omega
  have h1 := steps_daysInv (steps_init_to_pass1 cap orders n f hord) h0
  have h2 := steps_daysInv (steps_pass1_to_backfill cap orders n f) h1
  have h3 := steps_daysInv (steps_backfill_to_resolver cap orders n f) h2
  have h4 := steps_daysInv (steps_resolver_to_fill cap orders n f) h3
  exact ⟨h1, h2, h3, h4, can_assign_iff⟩

theorem claim_C4_witness :
    OrdersValid w_orders 1 ∧ (∀ i, i < 1 → FreshEmp (w_f i)) ∧
      (DaysInv (run_pass1 1 w_orders 1 w_f) ∧
       DaysInv (run_backfill 1 w_orders 1 w_f).1 ∧
       DaysInv (run_resolver 1 w_orders 1 w_f).1 ∧
       DaysInv (run_fill 1 w_orders 1 w_f) ∧
       (∀ (e : Employee) (d : Nat), can_assign e d = true ↔
         (e.assigned_shifts.lookup d = none ∧ e.days_assigned < 5))) :=
  ⟨fun d i hi => by simp only [w_orders, List.mem_singleton] at hi; omega,
   fun i _ => ⟨rfl, rfl⟩,
   claim_C4 1 w_orders 1 w_f
     (fun d i hi => by simp only [w_orders, List.mem_singleton] at hi; omega)
     (fun i _ => ⟨rfl, rfl⟩)⟩

/-- C9: monotonicity — across the four-pass sequence each pass only adds:
`daysAssigned` never decreases, recorded day→shift bindings are never
removed or replaced, and every cell only grows by appending. -/
theorem claim_C9 (cap : Nat) (orders : Nat → List Nat) (n : Nat) (f : Nat → Employee)
    (hord : OrdersValid orders n) :
    monole (initState n f) (run_pass1 cap orders n f) ∧
    monole (run_pass1 cap orders n f) (run_backfill cap orders n f).1 ∧
    monole (run_backfill cap orders n f).1 (run_resolver cap orders n f).1 ∧
    monole (run_resolver cap orders n f).1 (run_fill cap orders n f) :=
  ⟨steps_monole (steps_init_to_pass1 cap orders n f hord),
   steps_monole (steps_pass1_to_backfill cap orders n f),
   steps_monole (steps_backfill_to_resolver cap orders n f),
   steps_monole (steps_resolver_to_fill cap orders n f)⟩

theorem claim_C9_witness :
    OrdersValid w_orders 1 ∧
      (monole (initState 1 w_f) (run_pass1 1 w_orders 1 w_f) ∧
       monole (run_pass1 1 w_orders 1 w_f) (run_backfill 1 w_orders 1 w_f).1 ∧
       monole (run_backfill 1 w_orders 1 w_f).1 (run_resolver 1 w_orders 1 w_f).1 ∧
       monole (run_resolver 1 w_orders 1 w_f).1 (run_fill 1 w_orders 1 w_f)) :=
  ⟨fun d i hi => by simp only [w_orders, List.mem_singleton] at hi; omega,
   claim_C9 1 w_orders 1 w_f
     (fun d i hi => by simp only [w_orders, List.mem_singleton] at hi; omega)⟩

/-- C8: shortage accounting — immediately after the shortage resolver,
the sum over all 21 cells of `max(0, minRequired − occupancy)` equals the
sum of the `missingCount` values of the residual shortages the resolver
returned. -/
theorem claim_C8 (cap : Nat) (orders : Nat → List Nat) (n : Nat) (f : Nat → Employee) :
    deficitSum (run_resolver cap orders n f).1 = sumNeeds (run_resolver cap orders n f).2 :=
  deficit_after_resolver cap orders n f

/-- C5: one-shift-per-day invariant — with unique names and fresh
workers, after each of the four passes every worker records at most one
shift per day and the worker's name appears in exactly the cell named by
`assignedShifts[day]` (hence in at most one cell per day). -/
theorem claim_C5 (cap : Nat) (orders : Nat → List Nat) (n : Nat) (f : Nat → Employee)
    (hord : OrdersValid orders n) (hfresh : ∀ i, i < n → FreshEmp (f i))
    (hnames : ∀ i j, i < n → j < n → i ≠ j → (f i).name ≠ (f j).name) :
    OneShiftPerDay (run_pass1 cap orders n f) ∧
    OneShiftPerDay (run_backfill cap orders n f).1 ∧
    OneShiftPerDay (run_resolver cap orders n f).1 ∧
    OneShiftPerDay (run_fill cap orders n f) := by
  have hn0 : NamesOK (initState n f) := fun i j hi hj hij => hnames i j hi hj hij
  have hm0 : MirrorInv (initState n f) := initState_mirror n f hfresh
  have h1 := steps_mirror (steps_init_to_pass1 cap orders n f hord) hn0 hm0
  have h2 := steps_mirror (steps_pass1_to_backfill cap orders n f) h1.1 h1.2
  have h3 := steps_mirror (steps_backfill_to_resolver cap orders n f) h2.1 h2.2
  have h4 := steps_mirror (steps_resolver_to_fill cap orders n f) h3.1 h3.2
  exact ⟨mirror_oneShift _ h1.2, mirror_oneShift _ h2.2,
    mirror_oneShift _ h3.2, mirror_oneShift _ h4.2⟩

theorem claim_C5_witness :
    OrdersValid w_orders 1 ∧ (∀ i, i < 1 → FreshEmp (w_f i)) ∧
      (∀ i j, i < 1 → j < 1 → i ≠ j → (w_f i).name ≠ (w_f j).name) ∧
      (OneShiftPerDay (run_pass1 1 w_orders 1 w_f) ∧
       OneShiftPerDay (run_backfill 1 w_orders 1 w_f).1 ∧
       OneShiftPerDay (run_resolver 1 w_orders 1 w_f).1 ∧
       OneShiftPerDay (run_fill 1 w_orders 1 w_f)) :=
  ⟨fun d i hi => by simp only [w_orders, List.mem_singleton] at hi; omega,
   fun i _ => ⟨rfl, rfl⟩,
   fun i j hi hj hij => absurd (by omega : i = j) hij,
   claim_C5 1 w_orders 1 w_f
     (fun d i hi => by simp only [w_orders, List.mem_singleton] at hi; omega)
     (fun i _ => ⟨rfl, rfl⟩)
     (fun i j hi hj hij => absurd (by omega : i = j) hij)⟩

/-- C10: coverage-sweep maximality — after the final pass, a worker who
is still unassigned on a day `d < 7` and below the weekly cap can only
exist if all three cells of that day hold exactly `maxPerShift` names. -/
theorem claim_C10 (cap : Nat) (orders : Nat → List Nat) (n : Nat) (f : Nat → Employee)
    (hord : OrdersValid orders n) :
    ∀ i d, i < n → d < 7 →
      can_assign ((run_fill cap orders n f).emps i) d = true →
      ∀ s, ((run_fill cap orders n f).schedule d s).length = cap := by
  intro i d hi hd hca
  have hsteps := steps_init_to_fill cap orders n f hord
  have hcapInv := steps_capInv hsteps (initState_capInv cap n f)
  have hnemps : (run_fill cap orders n f).nemps = n := steps_nemps hsteps
  have hdisj : DisjAt cap d (run_fill cap orders n f) i := by
    refine fill_remaining_disjAt cap (run_resolver cap orders n f).1 d hd i ?_
    show i < (run_fill cap orders n f).nemps
    rw [hnemps]
    exact hi
  obtain ⟨hlk, hdays⟩ := (can_assign_iff _ d).1 hca
  rcases hdisj with h1 | h2 | h3
  · exact absurd hlk h1
  · omega
  · intro s
    exact le_antisymm (hcapInv d s) (h3 s)

theorem claim_C10_witness :
    OrdersValid w_orders 1 ∧
      (∀ i d, i < 1 → d < 7 →
        can_assign ((run_fill 1 w_orders 1 w_f).emps i) d = true →
        ∀ s, ((run_fill 1 w_orders 1 w_f).schedule d s).length = 1) :=
  ⟨fun d i hi => by simp only [w_orders, List.mem_singleton] at hi; omega,
   claim_C10 1 w_orders 1 w_f
     (fun d i hi => by simp only [w_orders, List.mem_singleton] at hi; omega)⟩

/-- C7: the minimum-staffing backfill, per cell — the eligible pool is
sorted ascending by `daysAssigned`, stably (a permutation that keeps the
relative order of equal loads); exactly
`min(need, #eligible, maxPerShift − occupancy)` least-loaded workers (an
initial segment of the sorted pool) are placed; a shortage record
`(day, shift, need − placed)` is emitted iff `placed < need`; a cell with
`need ≤ 0` is left unchanged with no record; and the pass is the fold of
this cell step over the 21 cells in canonical order. -/
theorem claim_C7 (m cap day : Nat) (s : Shift) (st : SchedState)
    (cs : List (Nat × Shift)) :
    (sorted_eligible st day).Perm (eligible_for st day) ∧
    (sorted_eligible st day).Pairwise
      (fun i j => (st.emps i).days_assigned ≤ (st.emps j).days_assigned) ∧
    (∀ v, (sorted_eligible st day).filter (fun i => (st.emps i).days_assigned == v)
        = (eligible_for st day).filter (fun i => (st.emps i).days_assigned == v)) ∧
    cell_pick m cap day s st = min (m - (st.schedule day s).length)
      (min (sorted_eligible st day).length (cap - (st.schedule day s).length)) ∧
    backfill_cell m cap day s st
      = (assign_all day s ((sorted_eligible st day).take (cell_pick m cap day s st)) st,
         if 0 < (m - (st.schedule day s).length) - cell_pick m cap day s st
         then [(day, s, (m - (st.schedule day s).length) - cell_pick m cap day s st)]
         else []) ∧
    ((backfill_cell m cap day s st).1.schedule day s).length
      = (st.schedule day s).length + cell_pick m cap day s st ∧
    backfill_cells m cap ((day, s) :: cs) st
      = ((backfill_cells m cap cs (backfill_cell m cap day s st).1).1,
         (backfill_cell m cap day s st).2
           ++ (backfill_cells m cap cs (backfill_cell m cap day s st).1).2) ∧
    ensure_minimum_staffing m cap st = backfill_cells m cap gridCells st :=
  ⟨sort_by_key_perm _ _,
   sort_by_key_sorted _ _,
   fun v => sort_by_key_filter _ v _,
   rfl,
   backfill_cell_eq m cap day s st,
   backfill_cell_sched_len m cap day s st,
   rfl,
   rfl⟩

/-- C1 as stated is false on the code: with `maxPerShift = 2`, an empty
cell, two fresh eligible workers and a recorded need of 2, the resolver
places only one worker (its guard re-reads the growing cell while also
adding `len(chosen)`), not `min(need, #eligible, maxPerShift − occupancy)
= 2`, and returns a residual shortage of 1. -/
theorem claim_C1_counterexample :
    (resolve_shortages_via_next_day 2 [(0, Shift.morning, 2)] c1_state).2
        = [(0, Shift.morning, 1)] ∧
    ¬ ((resolve_loop 0 Shift.morning 2 2 (sorted_eligible c1_state 0) c1_state 0).2
        = min 2 (min (sorted_eligible c1_state 0).length
            (2 - (c1_state.schedule 0 Shift.morning).length))) := by
  decide

/-- C1 amended: for each shortage record `(day, shift, need)` the
resolver re-gathers the then-eligible workers for that day, sorts them
ascending by `daysAssigned`, and places exactly
`min(need, #eligible, ⌈(maxPerShift − occupancy)/2⌉)` of them into the
cell — the guard double-counts the growing cell, halving the usable
headroom; the residual `need − placed`, when positive, is returned as an
unresolved shortage for that cell. -/
theorem claim_C1_amended (cap : Nat) (st : SchedState) (d : Nat) (s : Shift) (need : Nat)
    (rest : List (Nat × Shift × Nat)) :
    (sorted_eligible st d).Perm (eligible_for st d) ∧
    (sorted_eligible st d).Pairwise
      (fun i j => (st.emps i).days_assigned ≤ (st.emps j).days_assigned) ∧
    (resolve_loop d s need cap (sorted_eligible st d) st 0).2
      = min need (min (sorted_eligible st d).length
          ((cap - (st.schedule d s).length + 1) / 2)) ∧
    ((resolve_loop d s need cap (sorted_eligible st d) st 0).1.schedule d s).length
      = (st.schedule d s).length + (resolve_loop d s need cap (sorted_eligible st d) st 0).2 ∧
    resolve_shortages_via_next_day cap ((d, s, need) :: rest) st
      = ((resolve_shortages_via_next_day cap rest
            (resolve_loop d s need cap (sorted_eligible st d) st 0).1).1,
         (if 0 < need - (resolve_loop d s need cap (sorted_eligible st d) st 0).2
          then [(d, s, need - (resolve_loop d s need cap (sorted_eligible st d) st 0).2)]
          else [])
           ++ (resolve_shortages_via_next_day cap rest
              (resolve_loop d s need cap (sorted_eligible st d) st 0).1).2) := by
  obtain ⟨hcount, hlen, _, _, _⟩ := resolve_loop_spec d s need cap
    (st.schedule d s).length (sorted_eligible st d) st 0 (by omega) (by omega)
  refine ⟨sort_by_key_perm _ _, sort_by_key_sorted _ _, ?_, hlen, rfl⟩
  rw [hcount]
  omega

/-- C2 as stated is false on the code: in the concrete run with 3
workers, `maxPerShift = 1` and all preferring morning on day 0, the other
two workers are NOT left unassigned on day 0 by the preference pass — its
same-day fallback places them into afternoon and evening during the pass
itself (while the first conjunct, exactly one name in morning, holds). -/
theorem claim_C2_counterexample :
    ((run_pass1 1 c2_orders 3 c2_f).emps 1).assigned_shifts.lookup 0
        = some Shift.afternoon ∧
    ((run_pass1 1 c2_orders 3 c2_f).emps 2).assigned_shifts.lookup 0
        = some Shift.evening ∧
    ((run_pass1 1 c2_orders 3 c2_f).schedule 0 Shift.morning).length = 1 := by
  decide

/-- C2 amended: with exactly 3 fresh workers, `maxPerShift = 1` and every
worker's day-0 preference list equal to `[morning]`, the preference pass
places exactly one worker in the morning cell of day 0 and — via its own
same-day fallback, not the backfill — places the other two on day 0 as
well, one in afternoon and one in evening; no worker is unassigned on
day 0 when the preference pass ends. -/
theorem claim_C2_amended (orders : Nat → List Nat) (f : Nat → Employee)
    (hperm : (orders 0).Perm [0, 1, 2])
    (hf : ∀ i, i < 3 → FreshEmp (f i) ∧ (f i).preferences 0 = [Shift.morning]) :
    ((run_pass1 1 orders 3 f).schedule 0 Shift.morning).length = 1 ∧
    ((run_pass1 1 orders 3 f).schedule 0 Shift.afternoon).length = 1 ∧
    ((run_pass1 1 orders 3 f).schedule 0 Shift.evening).length = 1 ∧
    (∀ i, i < 3 →
      ((run_pass1 1 orders 3 f).emps i).assigned_shifts.lookup 0 ≠ none) := by
  have hsplit : run_pass1 1 orders 3 f
      = [1, 2, 3, 4, 5, 6].foldl (fun st2 day => schedule_day_pass 1 day (orders day) st2)
          (schedule_day_pass 1 0 (orders 0) (initState 3 f)) := rfl
  have hnotin : (0 : Nat) ∉ [1, 2, 3, 4, 5, 6] := by decide
  have hcells : ∀ s0 : Shift, (run_pass1 1 orders 3 f).schedule 0 s0
      = (schedule_day_pass 1 0 (orders 0) (initState 3 f)).schedule 0 s0 := by
    intro s0
    rw [hsplit]
    exact days_fold_sched_ne 1 orders s0 _ _ hnotin
  have hlooks : ∀ j, ((run_pass1 1 orders 3 f).emps j).assigned_shifts.lookup 0
      = ((schedule_day_pass 1 0 (orders 0) (initState 3 f)).emps
          j).assigned_shifts.lookup 0 := by
    intro j
    rw [hsplit]
    exact days_fold_lookup_ne 1 orders j _ _ hnotin
  rcases perm_three (orders 0) hperm with h | h | h | h | h | h <;> rw [h] at hcells hlooks
  · obtain ⟨hm, ha, he, hlk⟩ := day0_scenario f 0 1 2 (by omega) (by omega) (by omega)
      (by omega) (by omega) (by omega) hf
    exact ⟨by rw [hcells]; exact hm, by rw [hcells]; exact ha, by rw [hcells]; exact he,
      fun i hi => by rw [hlooks i]; exact hlk i hi⟩
  · obtain ⟨hm, ha, he, hlk⟩ := day0_scenario f 0 2 1 (by omega) (by omega) (by omega)
      (by omega) (by omega) (by omega) hf
    exact ⟨by rw [hcells]; exact hm, by rw [hcells]; exact ha, by rw [hcells]; exact he,
      fun i hi => by rw [hlooks i]; exact hlk i hi⟩
  · obtain ⟨hm, ha, he, hlk⟩ := day0_scenario f 1 0 2 (by omega) (by omega) (by omega)
      (by omega) (by omega) (by omega) hf
    exact ⟨by rw [hcells]; exact hm, by rw [hcells]; exact ha, by rw [hcells]; exact he,
      fun i hi => by rw [hlooks i]; exact hlk i hi⟩
  · obtain ⟨hm, ha, he, hlk⟩ := day0_scenario f 1 2 0 (by omega) (by omega) (by omega)
      (by omega) (by omega) (by omega) hf
    exact ⟨by rw [hcells]; exact hm, by rw [hcells]; exact ha, by rw [hcells]; exact he,
      fun i hi => by rw [hlooks i]; exact hlk i hi⟩
  · obtain ⟨hm, ha, he, hlk⟩ := day0_scenario f 2 0 1 (by omega) (by omega) (by omega)
      (by omega) (by omega) (by omega) hf
    exact ⟨by rw [hcells]; exact hm, by rw [hcells]; exact ha, by rw [hcells]; exact he,
      fun i hi => by rw [hlooks i]; exact hlk i hi⟩
  · obtain ⟨hm, ha, he, hlk⟩ := day0_scenario f 2 1 0 (by omega) (by omega) (by omega)
      (by omega) (by omega) (by omega) hf
    exact ⟨by rw [hcells]; exact hm, by rw [hcells]; exact ha, by rw [hcells]; exact he,
      fun i hi => by rw [hlooks i]; exact hlk i hi⟩

theorem claim_C2_amended_witness :
    (c2_orders 0).Perm [0, 1, 2] ∧
      (∀ i, i < 3 → FreshEmp (c2_f i) ∧ (c2_f i).preferences 0 = [Shift.morning]) ∧
      (((run_pass1 1 c2_orders 3 c2_f).schedule 0 Shift.morning).length = 1 ∧
       ((run_pass1 1 c2_orders 3 c2_f).schedule 0 Shift.afternoon).length = 1 ∧
       ((run_pass1 1 c2_orders 3 c2_f).schedule 0 Shift.evening).length = 1 ∧
       (∀ i, i < 3 →
         ((run_pass1 1 c2_orders 3 c2_f).emps i).assigned_shifts.lookup 0 ≠ none)) :=
  ⟨by decide, fun i _ => ⟨⟨rfl, rfl⟩, rfl⟩,
   claim_C2_amended c2_orders c2_f (by decide) (fun i _ => ⟨⟨rfl, rfl⟩, rfl⟩)⟩

end EmployeeShifts
